/-
Verification of the QRL hash-based signature core (merkle.py, hmac_drbg.py).

The Python source is shallowly embedded: the SHA-256 primitive (imported
from the external `bitcoin` library) is an abstract parameter
`H : String → String`; byte strings are `List Nat`; Python lists are Lean
lists.  Fallible Python code (IndexError on out-of-range indexing,
RuntimeError) is embedded with `Option` / `Except`.
-/
import Mathlib

/-! ### Python string/number helpers (hex parsing and formatting) -/

/-- Value of a single hexadecimal character, as `int(c, 16)` computes it.
Python raises `ValueError` on a non-hex character; the embedding returns 0
there (all inputs reached by the claims are valid hex digits). -/
def hexVal (c : Char) : Nat :=
  let n := c.toNat
  if 48 ≤ n ∧ n ≤ 57 then n - 48
  else if 97 ≤ n ∧ n ≤ 102 then n - 87
  else if 65 ≤ n ∧ n ≤ 70 then n - 55
  else 0

/-- `int(s, 16)` on a hex string (most significant digit first). -/
def hexToNat (s : String) : Nat :=
  s.toList.foldl (fun a c => 16 * a + hexVal c) 0

/-- Lower-case hex character of a value `< 16`. -/
def hexChar (n : Nat) : Char :=
  if n < 10 then Char.ofNat (48 + n) else Char.ofNat (87 + n)

/-- Hex digits of `n`, most significant first, no leading zeros; `[]` for 0. -/
def hexGo : Nat → List Char
  | 0 => []
  | n + 1 => hexGo ((n + 1) / 16) ++ [hexChar ((n + 1) % 16)]
  decreasing_by exact Nat.div_lt_self (Nat.succ_pos n) (by omega)

/-- The digits of Python's `hex(n)` after stripping the `0x` prefix
(`hex(0)[2:] == "0"`). -/
def hexDigits (n : Nat) : List Char :=
  if n = 0 then ['0'] else hexGo n

/-- Python 2 `hex(n)` for a nonnegative value: `0x` prefix, lower-case
digits, and an `L` suffix when the value is a long (exceeds `sys.maxint`,
i.e. `2^63 - 1` on the reference 64-bit platform). -/
def pyHex (n : Nat) : String :=
  "0x" ++ String.mk (hexDigits n) ++ (if 2 ^ 63 ≤ n then "L" else "")

/-- Binary digits of `n`, most significant first; `[]` for 0. -/
def binGo : Nat → List Char
  | 0 => []
  | n + 1 => binGo ((n + 1) / 2) ++ [if (n + 1) % 2 = 1 then '1' else '0']
  decreasing_by exact Nat.div_lt_self (Nat.succ_pos n) (by omega)

/-- The digits of Python's `bin(n)` after stripping the `0b` prefix. -/
def binDigits (n : Nat) : List Char :=
  if n = 0 then ['0'] else binGo n

/-- `bin(b)[2:]` left-padded with `'0'` up to 8 characters, as the
`while len(l_byte) < 8` loop of `sign_lkey` / `verify_lkey` builds it. -/
def pyBinPad8 (b : Nat) : List Char :=
  let d := binDigits b
  List.replicate (8 - d.length) '0' ++ d

/-- `binascii.unhexlify`: hex string to byte list, one byte per pair of
characters.  Python raises on odd length; digests reached by the claims
always have even length, a trailing unpaired character is dropped here. -/
def unhexlify (s : String) : List Nat :=
  let rec go : List Char → List Nat
    | a :: b :: t => (16 * hexVal a + hexVal b) :: go t
    | _ => []
  go s.toList

/-! ### merkle.py — Winternitz+ chaining function (lines 33-47) -/

/-- `fn_k(x, k) = sha256(k + x)` (merkle.py line 33). -/
def fn_k (H : String → String) (x k : String) : String := H (k ++ x)

/-- One iteration of the chain loop body
`x = fn_k(hex(int(x,16) ^ int(r[y],16)), k)` (merkle.py line 41). -/
def chainStep (H : String → String) (r : List String) (k : String)
    (x : String) (y : Nat) : String :=
  fn_k H (pyHex (Nat.xor (hexToNat x) (hexToNat (r.getD y "")))) k

/-- `chain_fn(x, r, i, k)` (merkle.py lines 36-42): `i` chained
applications, consuming randomizers `r[0] .. r[i-1]`. -/
def chain_fn (H : String → String) (x : String) (r : List String)
    (i : Nat) (k : String) : String :=
  if i = 0 then x else (List.range i).foldl (chainStep H r k) x

/-- `chain_fn2(x, r, i, k)` (merkle.py lines 44-47): resumes the chain at
step `i`, consuming randomizers `r[i] .. r[14]` (the loop is
`for y in range(i, 15)`). -/
def chain_fn2 (H : String → String) (x : String) (r : List String)
    (i : Nat) (k : String) : String :=
  (List.range' i (15 - i)).foldl (chainStep H r k) x

/-! ### merkle.py — Winternitz+ OTS (lines 50-159)

The source instantiates `w = 16`, where the fast path of `sign_wpkey` /
`verify_wpkey` fixes `l_1 = 64`, `l_2 = 3`, `l = 67` (the general
floating-point formulas in `random_wpkey` evaluate to the same values for
`w = 16`). -/

/-- The public key of the `w = 16` checksummed scheme: `pub[0] = (r, k)`
(randomizer list and chain key) followed by the 67 chain endpoints. -/
structure WPPub where
  r : List String
  k : String
  chain : List String
deriving DecidableEq

/-- `random_wpkey(w=16)` (merkle.py lines 50-80).  The stream of
`random_key()` outputs is passed in as `rand` (secret-key fragments) and
`rk` (the chain key `k`); `l + w - 1 = 82` fragments are drawn, the first
67 forming `priv` and the last 15 the randomizer list `r`. -/
def random_wpkey (H : String → String) (rand : List String) (rk : String) :
    List String × WPPub :=
  let sk := (List.range 82).map (fun x => rand.getD x "")
  let priv := sk.take 67
  let r := sk.drop 67
  (priv, ⟨r, rk, priv.map (fun sk_ => chain_fn H sk_ r 15 rk)⟩)

/-- Hex digit `x` of the message digest, `int(message[x], 16)` after
`message = sha256(message)` (merkle.py line 101). -/
def wpMsgDigit (H : String → String) (message : String) (x : Nat) : Nat :=
  hexVal ((H message).toList.getD x '0')

/-- The checksum `sum(w - 1 - y)` over the 64 message digits
(merkle.py line 103). -/
def wpChecksum (H : String → String) (message : String) : Nat :=
  ((List.range 64).map (fun x => 15 - wpMsgDigit H message x)).sum

/-- The checksum encoding `c = hex(checksum)[2:]`, left-padded with a
single `'0'` when shorter than 3 characters (merkle.py lines 105-108).
Note the source pads at most once. -/
def wpChecksumChars (H : String → String) (message : String) : List Char :=
  let c := hexDigits (wpChecksum H message)
  if c.length < 3 then '0' :: c else c

/-- The 67 chain indices `s` of `sign_wpkey` / `verify_wpkey`
(merkle.py lines 97-113 and 134-149): 64 message digits followed by the 3
checksum digits `int(c[x], 16)`.  Reading `c[x]` for `x < 3` raises
`IndexError` in Python when the padded checksum has fewer than 3
characters; that failure is embedded as `none`. -/
def wpDigits (H : String → String) (message : String) : Option (List Nat) :=
  let c := wpChecksumChars H message
  if c.length < 3 then none
  else some ((List.range 64).map (wpMsgDigit H message) ++
    (List.range 3).map (fun x => hexVal (c.getD x '0')))

/-- `sign_wpkey(priv, message, pub, w=16)` (merkle.py lines 83-119):
signature element `x` is `chain_fn(priv[x], pub[0][0], s[x], pub[0][1])`. -/
def sign_wpkey (H : String → String) (priv : List String) (message : String)
    (pub : WPPub) : Option (List String) :=
  (wpDigits H message).map (fun s =>
    (List.range 67).map (fun x =>
      chain_fn H (priv.getD x "") pub.r (s.getD x 0) pub.k))

/-- `verify_wpkey(signature, message, pub, w=16)` (merkle.py lines
121-159): chains each signature element the remaining steps with
`chain_fn2` and compares with `pub[1:]`. -/
def verify_wpkey (H : String → String) (signature : List String)
    (message : String) (pub : WPPub) : Option Bool :=
  (wpDigits H message).map (fun s =>
    decide ((List.range 67).map (fun x =>
      chain_fn2 H (signature.getD x "") pub.r (s.getD x 0) pub.k) = pub.chain))

/-! ### merkle.py — plain Winternitz OTS (lines 163-219) -/

/-- The inner hashing loop `for x in range(n): a = sha256(a)`. -/
def hashIter (H : String → String) (n : Nat) (s : String) : String :=
  (List.range n).foldl (fun a _ => H a) s

/-- `random_wkey(w)` (merkle.py lines 163-180): `256/w` secret fragments;
each public element is the private one hashed `2^w - 1` times (`F`) and
once more (`G`).  The `random_key()` stream is passed in as `rand`. -/
def random_wkey (H : String → String) (rand : List String) (w : Nat) :
    List String × List String :=
  let w := if w > 16 then 16 else w
  ((List.range (256 / w)).map (fun x => rand.getD x ""),
   (List.range (256 / w)).map (fun x =>
     H (hashIter H (2 ^ w - 1) (rand.getD x ""))))

/-- Byte `y` of `unhexlify(sha256(message))`, i.e. `ord(bin_msg[y:y+1])`
(merkle.py line 198). -/
def msgByte (H : String → String) (message : String) (y : Nat) : Nat :=
  (unhexlify (H message)).getD y 0

/-- `sign_wkey(priv, message)` (merkle.py lines 191-201): element `y` is
`priv[y]` hashed `256 - ord(bin_msg[y])` times. -/
def sign_wkey (H : String → String) (priv : List String) (message : String) :
    List String :=
  (List.range priv.length).map (fun y =>
    hashIter H (256 - msgByte H message y) (priv.getD y ""))

/-- `verify_wkey(signature, message, pub)` (merkle.py lines 203-219):
hashes each signature element `ord(bin_msg[x])` more times and compares
the resulting list with `pub`. -/
def verify_wkey (H : String → String) (signature : List String)
    (message : String) (pub : List String) : Bool :=
  let verify := (List.range signature.length).map (fun x =>
    hashIter H (msgByte H message x) (signature.getD x ""))
  if pub ≠ verify then false else true

/-! ### merkle.py — Lamport-Diffie OTS (lines 224-289) -/

/-- The bit-selection sequence of `sign_lkey` / `verify_lkey`: for each
byte of the digest the 8-character padded binary string is consumed from
its last character (`l_byte[-1:]`), so the per-byte bits appear
least-significant first. -/
def lbits (H : String → String) (message : String) : List Char :=
  ((unhexlify (H message)).map (fun b => (pyBinPad8 b).reverse)).flatten

/-- `sign_lkey(priv, message)` (merkle.py lines 224-246): reveal
`priv[z][0]` for a `'0'` bit and `priv[z][1]` for a `'1'` bit, `z`
running over all 256 bits. -/
def sign_lkey (H : String → String) (priv : List (String × String))
    (message : String) : List String :=
  let bits := lbits H message
  (List.range bits.length).map (fun z =>
    if bits.getD z '0' = '0' then (priv.getD z ("", "")).1
    else (priv.getD z ("", "")).2)

/-- `verify_lkey(signature, message, pub)` (merkle.py lines 249-277):
pairs `sha256(signature[z])` with the public half selected by bit `z` and
accepts iff every pair is equal. -/
def verify_lkey (H : String → String) (signature : List String)
    (message : String) (pub : List (String × String)) : Bool :=
  let bits := lbits H message
  let verify := (List.range bits.length).map (fun z =>
    if bits.getD z '0' = '0' then
      (H (signature.getD z ""), (pub.getD z ("", "")).1)
    else
      (H (signature.getD z ""), (pub.getD z ("", "")).2))
  verify.all (fun p => p.1 == p.2)

/-- `random_lkey(numbers)` (merkle.py lines 279-289): `numbers` secret
pairs, public halves their hashes.  The `random_key()` stream is passed in
as `rand`. -/
def random_lkey (H : String → String) (rand : List (String × String))
    (numbers : Nat) : List (String × String) × List (String × String) :=
  ((List.range numbers).map (fun x => rand.getD x ("", "")),
   (List.range numbers).map (fun x =>
     (H (rand.getD x ("", "")).1, H (rand.getD x ("", "")).2)))

/-! ### merkle.py — Merkle tree (class Merkle, lines 463-557) and
`verify_root` (lines 309-338) -/

/-- The branching lookup table of `Merkle.create_tree` (merkle.py lines
516-533).  For more than 512 leaves no branch assigns `num_branches` and
Python raises `NameError`; the claims restrict leaf counts to `1..512`,
so the final `else` value 0 is never reached there. -/
def num_branches (n : Nat) : Nat :=
  if n ≤ 2 then 1
  else if n ≤ 4 then 2
  else if n ≤ 8 then 3
  else if n ≤ 16 then 4
  else if n ≤ 32 then 5
  else if n ≤ 64 then 6
  else if n ≤ 128 then 7
  else if n ≤ 256 then 8
  else if n ≤ 512 then 9
  else 0

/-- One cycle of the inner layer loop of `create_tree` (merkle.py lines
544-549), acting on the cursor `y` and the accumulated `temp_array`:
either carry the final unpaired element or hash the adjacent pair. -/
def clStep (H : String → String) (hl : List String)
    (p : Nat × List String) : Nat × List String :=
  if p.1 + 1 = hl.length then (p.1, p.2 ++ [hl.getD p.1 ""])
  else (p.1 + 2, p.2 ++ [H (hl.getD p.1 "" ++ hl.getD (p.1 + 1) "")])

/-- One layer of `create_tree` (merkle.py lines 541-549): the loop runs
`cycles = len % 2 + len / 2` times. -/
def create_layer (H : String → String) (hl : List String) : List String :=
  ((clStep H hl)^[hl.length % 2 + hl.length / 2] (0, [])).2

/-- The layers above the base: `num_branches` iterations of
`create_layer`, each appended to the tree (merkle.py lines 540-552). -/
def layersFrom (H : String → String) (l : List String) : Nat → List (List String)
  | 0 => []
  | k + 1 => create_layer H l :: layersFrom H (create_layer H l) k

/-- `Merkle.create_tree` (merkle.py lines 514-557): the base layer
followed by `num_branches` hash layers. -/
def create_tree (H : String → String) (base : List String) :
    List (List String) :=
  base :: layersFrom H base (num_branches base.length)

/-- `self.root`: the final layer produced by `create_tree`
(merkle.py line 553). -/
def treeRoot (H : String → String) (base : List String) : List String :=
  (create_tree H base).getLastD []

/-- The inner sibling search of `Merkle.route_proof` (merkle.py lines
499-507): try each `nodehash` of the layer above against
`sha256(leaf+node)` and `sha256(node+leaf)`, appending the ordered pair
and climbing on a match. -/
def innerStep (H : String → String) (node : String)
    (st : String × List (List String)) (nh : String) :
    String × List (List String) :=
  if H (st.1 ++ node) = nh then (nh, st.2 ++ [[st.1, node]])
  else if H (node ++ st.1) = nh then (nh, st.2 ++ [[node, st.1]])
  else st

/-- The `for node in nodes` loop body of `route_proof` (merkle.py lines
497-507): skip the current leaf itself, otherwise search the layer
above. -/
def nodeStep (H : String → String) (above : List String)
    (st : String × List (List String)) (node : String) :
    String × List (List String) :=
  if st.1 ≠ node then above.foldl (innerStep H node) st else st

/-- One `x` iteration of `route_proof` (merkle.py lines 487-507): a
singleton layer equal to the root appends the root, any other layer is
searched node by node. -/
def layerStep (H : String → String) (tree : List (List String))
    (rootL : List String) (st : String × List (List String)) (x : Nat) :
    String × List (List String) :=
  let lay := tree.getD x []
  if lay.length = 1 then
    if lay = rootL then (st.1, st.2 ++ [rootL]) else st
  else
    lay.foldl (nodeStep H (tree.getD (x + 1) [])) st

/-- `Merkle.route_proof` for leaf `y` (merkle.py lines 477-512): walk
every layer starting from `tree[0][y]`, collecting the ordered sibling
pairs and finally the root. -/
def route_proof (H : String → String) (base : List String) (y : Nat) :
    List (List String) :=
  let tree := create_tree H base
  ((List.range tree.length).foldl (layerStep H tree (treeRoot H base))
      ((tree.getD 0 []).getD y "", [])).2

/-- The `for x in range(len(merkle_path))` loop of `verify_root`
(merkle.py lines 327-338), processed along the path's suffixes (the loop
reads only `merkle_path[x]` and `merkle_path[x+1]`), embedded with
`none` for the two possible `IndexError`s: reading
`merkle_path[x][0]` / `[1]` of an element shorter than 2, and reading
`merkle_path[x+1]` past the end of the path. -/
def verifyWalk (H : String → String) (merkle_root : String) :
    List (List String) → Option Bool
  | [] => some false
  | e :: rest =>
      if e.length = 1 then some (String.join e = merkle_root)
      else if e.length < 2 then none
      else
        match rest with
        | [] => none
        | e2 :: rest2 =>
            if H (e.getD 0 "" ++ e.getD 1 "") ∈ e2 then
              verifyWalk H merkle_root (e2 :: rest2)
            else some false

/-- `verify_root(pub, merkle_root, merkle_path)` (merkle.py lines
309-338).  `pub` is the list of public-key strings; for the 256-element
Lamport case the source flattens the list of pairs first, which leaves
`''.join(pub)` unchanged, so a flat list covers both cases.  `none`
models an uncaught `IndexError`. -/
def verify_root (H : String → String) (pub : List String)
    (merkle_root : String) (merkle_path : List (List String)) : Option Bool :=
  if pub = [] then some false
  else if merkle_root = "" then some false
  else if merkle_path = [] then some false
  else if H (String.join pub) ∉ merkle_path.getD 0 [] then some false
  else verifyWalk H merkle_root merkle_path

/-! ### hmac_drbg.py — HMAC_DRBG (lines 72-135)

`hmac.new(key, data, hashlib.sha256).digest()` is abstracted as a
parameter `hm : List Nat → List Nat → List Nat` over byte lists. -/

/-- The mutable state of an `HMAC_DRBG` instance. -/
structure DRBGState where
  K : List Nat
  V : List Nat
  reseed_counter : Nat
  security_strength : Nat
deriving DecidableEq

/-- The two RuntimeError conditions of `HMAC_DRBG.generate`. -/
inductive GenErr where
  | tooLarge
  | strength
deriving DecidableEq

namespace HMAC_DRBG

/-- `HMAC_DRBG.update(seed_material)` (hmac_drbg.py lines 127-135):
`none` models Python's `seed_material is None`, under which the second
HMAC round is skipped. -/
def update (hm : List Nat → List Nat → List Nat) (st : DRBGState)
    (seed_material : Option (List Nat)) : DRBGState :=
  let K1 := hm st.K (st.V ++ [0] ++ seed_material.getD [])
  let V1 := hm K1 st.V
  match seed_material with
  | none => { st with K := K1, V := V1 }
  | some sm =>
      let K2 := hm K1 (V1 ++ [1] ++ sm)
      let V2 := hm K2 V1
      { st with K := K2, V := V2 }

/-- `HMAC_DRBG.instantiate(entropy, personalisation_string)` together
with the constructor (hmac_drbg.py lines 79-82 and 117-125):
`K = 0x00*32`, `V = 0x01*32`, one seeded `update`, counter 1. -/
def instantiate (hm : List Nat → List Nat → List Nat)
    (entropy personalisation : List Nat) (security_strength : Nat) :
    DRBGState :=
  update hm
    { K := List.replicate 32 0, V := List.replicate 32 1,
      reseed_counter := 1, security_strength := security_strength }
    (some (entropy ++ personalisation))

/-- The `while len(temp) < num_bytes` accumulation loop of `generate`
(hmac_drbg.py lines 103-105), with explicit fuel.  Each iteration of the
real loop appends the 32-byte `V = HMAC(K, V)`, so `num_bytes` units of
fuel are never exhausted when `hm` returns nonempty output. -/
def genAccum (hm : List Nat → List Nat → List Nat) (K : List Nat)
    (num_bytes : Nat) : Nat → List Nat → List Nat → List Nat × List Nat
  | 0, V, temp => (temp, V)
  | fuel + 1, V, temp =>
      if temp.length < num_bytes then
        let V1 := hm K V
        genAccum hm K num_bytes fuel V1 (temp ++ V1)
      else (temp, V)

/-- `HMAC_DRBG.generate(num_bytes, requested_security_strength)`
(hmac_drbg.py lines 87-110).  `Except.error` models the two
RuntimeErrors, `Except.ok none` the exhausted-counter return; the second
component is the instance state after the call. -/
def generate (hm : List Nat → List Nat → List Nat) (st : DRBGState)
    (num_bytes requested_security_strength : Nat) :
    Except GenErr (Option (List Nat)) × DRBGState :=
  if num_bytes * 8 > 7500 then (.error .tooLarge, st)
  else if requested_security_strength > st.security_strength then
    (.error .strength, st)
  else if st.reseed_counter ≥ 80001 then (.ok none, st)
  else
    let acc := genAccum hm st.K num_bytes num_bytes st.V []
    let st1 := update hm { st with V := acc.2 } none
    (.ok (some (acc.1.take num_bytes)),
     { st1 with reseed_counter := st.reseed_counter + 1 })

/-- A sequence of `generate` calls on one instance, collecting each
call's result; every call uses the default
`requested_security_strength=256` as the PRF overlay functions do. -/
def runGen (hm : List Nat → List Nat → List Nat) (st : DRBGState)
    (calls : List Nat) :
    List (Except GenErr (Option (List Nat))) × DRBGState :=
  calls.foldl
    (fun acc nb =>
      let r := generate hm acc.2 nb 256
      (acc.1 ++ [r.1], r.2))
    ([], st)

/-- A sequence of `generate` calls with explicit
`(num_bytes, requested_security_strength)` pairs. -/
def runGen2 (hm : List Nat → List Nat → List Nat) (st : DRBGState)
    (calls : List (Nat × Nat)) :
    List (Except GenErr (Option (List Nat))) × DRBGState :=
  calls.foldl
    (fun acc c =>
      let r := generate hm acc.2 c.1 c.2
      (acc.1 ++ [r.1], r.2))
    ([], st)

end HMAC_DRBG

/-! ### Derived model definitions used to state the Merkle properties -/

/-- Layer `j` of the tree over `base` (`self.tree[j]`). -/
def layerAt (H : String → String) (base : List String) (j : Nat) :
    List String :=
  (create_tree H base).getD j []

/-- The pairwise layer construction as §4.5 of the design describes it:
adjacent elements hashed as `H(left ++ right)`, an odd trailing element
carried unchanged.  `create_layer` is proved equal to this function. -/
def pairHash (H : String → String) : List String → List String
  | [] => []
  | [a] => [a]
  | a :: b :: t => H (a ++ b) :: pairHash H t

/-- Leaf `i` is paired (not carried) at layer `k`: its position
`p = i / 2^k` is a right sibling, or a left sibling whose right
neighbour exists. -/
def pairedAt (H : String → String) (base : List String) (i k : Nat) : Bool :=
  let p := i / 2 ^ k
  p % 2 = 1 || p + 1 < (layerAt H base k).length

/-- The number of non-singleton layers at which leaf `i` is carried
upward unpaired (each such layer contributes no sibling pair to the
authentication path). -/
def carriedCount (H : String → String) (base : List String) (i : Nat) : Nat :=
  ((List.range (num_branches base.length)).filter (fun k =>
    1 < (layerAt H base k).length && !pairedAt H base i k)).length

/-- The ordered sibling pairs that `route_proof` collects for leaf `i`:
one pair per layer at which the leaf is paired. -/
def authPairs (H : String → String) (base : List String) (i : Nat) :
    List (List String) :=
  (List.range (num_branches base.length)).filterMap (fun k =>
    if pairedAt H base i k then
      some [(layerAt H base k).getD (2 * (i / 2 ^ (k + 1))) "",
            (layerAt H base k).getD (2 * (i / 2 ^ (k + 1)) + 1) ""]
    else none)

/-- The suffix of the collected sibling pairs contributed by layers
`j, j+1, …` (so `authPairsFrom … 0 = authPairs …`). -/
def authPairsFrom (H : String → String) (base : List String) (i j : Nat) :
    List (List String) :=
  (List.range' j (num_branches base.length - j)).filterMap (fun k =>
    if pairedAt H base i k then
      some [(layerAt H base k).getD (2 * (i / 2 ^ (k + 1))) "",
            (layerAt H base k).getD (2 * (i / 2 ^ (k + 1)) + 1) ""]
    else none)

/-- Hash-separation hypothesis for the tree over `base`: the standard
collision-freeness assumption on the hash, instantiated at the finitely
many values occurring in the tree.  It states that every layer is
duplicate-free, that a concatenation of two layer-`j` nodes hashes to a
layer-`j+1` node exactly when it is an adjacent left-right pair (hashing
to its parent), and that a concatenation involving an already-climbed
layer-`j+1` value never collides into layer `j+1`.  For the real SHA-256
these conditions fail only with a hash collision. -/
def sep (H : String → String) (base : List String) : Prop :=
  (∀ j, j < num_branches base.length → (layerAt H base j).Nodup) ∧
  (∀ j, j < num_branches base.length →
    ∀ p, p < (layerAt H base j).length →
    ∀ q, q < (layerAt H base j).length →
    ∀ r, r < (layerAt H base (j + 1)).length →
    (H ((layerAt H base j).getD p "" ++ (layerAt H base j).getD q "") =
        (layerAt H base (j + 1)).getD r "" ↔
      (p % 2 = 0 ∧ q = p + 1 ∧ r = p / 2))) ∧
  (∀ j, j < num_branches base.length →
    ∀ s, s < (layerAt H base (j + 1)).length →
    ∀ q, q < (layerAt H base j).length →
    ∀ r, r < (layerAt H base (j + 1)).length →
    H ((layerAt H base (j + 1)).getD s "" ++ (layerAt H base j).getD q "") ≠
        (layerAt H base (j + 1)).getD r "" ∧
    H ((layerAt H base j).getD q "" ++ (layerAt H base (j + 1)).getD s "") ≠
        (layerAt H base (j + 1)).getD r "")

/-! ### Concrete hash functions used for explicit counterexamples and
witnesses.  Instantiating the abstract SHA-256 parameter at these total
computable functions lets concrete runs be evaluated inside Lean. -/

/-- A prefix-marking hash stand-in: injective and collision-free on the
small concrete inputs used below. -/
def cH (s : String) : String := "h" ++ s

/-- The 64-character all-`f` digest (every hex digit 15, checksum 0). -/
def ff64 : String := String.mk (List.replicate 64 'f')

/-- A hash stand-in whose digests are all-`f`: drives the Winternitz+
checksum to 0, the worst case for the checksum encoding. -/
def cHff (_ : String) : String := ff64

/-- A hash stand-in whose digests are all-`0` (64 characters, checksum
960). -/
def cH0 (_ : String) : String := String.mk (List.replicate 64 '0')

/-! ## Helper lemmas -/

theorem chain_fn_eq_fold (H : String → String) (x : String) (r : List String)
    (i : Nat) (k : String) :
    chain_fn H x r i k = (List.range i).foldl (chainStep H r k) x := by
  unfold chain_fn
  split
  · subst i; rfl
  · rfl

theorem chain_resume_aux (H : String → String) (x : String)
    (r : List String) (k : String) (s : Nat) (hs : s ≤ 15) :
    chain_fn2 H (chain_fn H x r s k) r s k = chain_fn H x r 15 k := by
  rw [chain_fn_eq_fold, chain_fn_eq_fold, chain_fn2]
  have hsplit : List.range 15 = List.range s ++ List.range' s (15 - s) := by
    rw [List.range_eq_range', List.range_eq_range']
    have h2 := List.range'_append_1 0 s (15 - s)
    rw [Nat.zero_add, show 15 - s + s = 15 by omega] at h2
    exact h2.symm
  rw [hsplit, List.foldl_append]

theorem hexVal_le (c : Char) : hexVal c ≤ 15 := by
  unfold hexVal
  simp only []
  split <;> [omega; skip]
  split <;> [omega; skip]
  split <;> omega

theorem unhexlify_go_lt (l : List Char) :
    ∀ b ∈ unhexlify.go l, b < 256 := by
  induction l using unhexlify.go.induct with
  | case1 a c t ih =>
      intro b hb
      rw [unhexlify.go] at hb
      rcases List.mem_cons.mp hb with hb | hb
      · have h1 := hexVal_le a
        have h2 := hexVal_le c
        omega
      · exact ih b hb
  | case2 l h =>
      intro b hb
      rw [unhexlify.go] at hb
      · simp at hb
      · exact h

theorem unhexlify_lt (s : String) : ∀ b ∈ unhexlify s, b < 256 :=
  unhexlify_go_lt s.toList

theorem msgByte_le (H : String → String) (message : String) (y : Nat) :
    msgByte H message y ≤ 255 := by
  unfold msgByte
  rcases Nat.lt_or_ge y (unhexlify (H message)).length with h | h
  · have hmem : (unhexlify (H message)).getD y 0 ∈ unhexlify (H message) := by
      rw [List.getD_eq_getElem _ _ h]
      exact List.getElem_mem h
    have := unhexlify_lt (H message) _ hmem
    omega
  · rw [List.getD_eq_default _ _ h]
    omega

theorem hashIter_eq_iterate (H : String → String) (n : Nat) (s : String) :
    hashIter H n s = H^[n] s := by
  induction n with
  | zero => rfl
  | succ m ih =>
      unfold hashIter at *
      rw [List.range_succ, List.foldl_append, ih, Function.iterate_succ_apply']
      rfl

/-! ## C2 — chain resumption identity -/

/-- C2: for `w = 16`, for every hash `H`, value `x`, randomizer list `r`
with at least 15 elements, chain key `k`, and step count `0 ≤ s ≤ 15`,
resuming the chain from step `s` completes it:
`chain_fn2 (chain_fn x r s k) r s k = chain_fn x r 15 k`; and zero steps
is the identity: `chain_fn x r 0 k = x`. -/
theorem C2_chain_resume_identity (H : String → String) (x : String)
    (r : List String) (k : String) (s : Nat) (hs : s ≤ 15)
    (hr : 15 ≤ r.length) :
    chain_fn2 H (chain_fn H x r s k) r s k = chain_fn H x r 15 k ∧
    chain_fn H x r 0 k = x :=
  ⟨chain_resume_aux H x r k s hs, rfl⟩

/-- C2 witness: the identity evaluated at a concrete chain with `s = 7`. -/
theorem C2_chain_resume_identity_witness :
    chain_fn2 cH (chain_fn cH "ab" (List.replicate 15 "3c") 7 "k")
      (List.replicate 15 "3c") 7 "k" =
      chain_fn cH "ab" (List.replicate 15 "3c") 15 "k" ∧
    chain_fn cH "ab" (List.replicate 15 "3c") 0 "k" = "ab" :=
  C2_chain_resume_identity cH "ab" (List.replicate 15 "3c") "k" 7
    (by decide) (by decide)

/-! ## C8, C9, C10 — HMAC_DRBG -/

/-- C8: once an instance's reseed counter has passed the 80001 ceiling,
every `generate` call with valid arguments (request within the 7500-bit
limit and strength within the instance's strength) returns `None` and
leaves the state unchanged — the instance is permanently exhausted, with
no automatic reseed: an arbitrary sequence of subsequent valid calls
yields `None` every time and ends in the same state. -/
theorem C8_drbg_exhausted (hm : List Nat → List Nat → List Nat)
    (st : DRBGState) (hc : 80001 ≤ st.reseed_counter) :
    (∀ nb rs, nb * 8 ≤ 7500 → rs ≤ st.security_strength →
      HMAC_DRBG.generate hm st nb rs = (.ok none, st)) ∧
    (∀ calls : List (Nat × Nat),
      (∀ c ∈ calls, c.1 * 8 ≤ 7500 ∧ c.2 ≤ st.security_strength) →
      HMAC_DRBG.runGen2 hm st calls =
        (calls.map (fun _ => .ok none), st)) := by
  have hone : ∀ nb rs, nb * 8 ≤ 7500 → rs ≤ st.security_strength →
      HMAC_DRBG.generate hm st nb rs = (.ok none, st) := by
    intro nb rs h1 h2
    unfold HMAC_DRBG.generate
    rw [if_neg (by omega), if_neg (by omega), if_pos (by omega)]
  refine ⟨hone, ?_⟩
  intro calls hcalls
  unfold HMAC_DRBG.runGen2
  have main : ∀ (cs : List (Nat × Nat)) (acc : List (Except GenErr (Option (List Nat)))),
      (∀ c ∈ cs, c.1 * 8 ≤ 7500 ∧ c.2 ≤ st.security_strength) →
      cs.foldl (fun acc c =>
          let r := HMAC_DRBG.generate hm acc.2 c.1 c.2
          (acc.1 ++ [r.1], r.2)) (acc, st) =
        (acc ++ cs.map (fun _ => .ok none), st) := by
    intro cs
    induction cs with
    | nil => intro acc _; simp
    | cons c t ih =>
        intro acc hv
        have hc1 := hv c (List.mem_cons_self c t)
        rw [List.foldl_cons]
        simp only [hone c.1 c.2 hc1.1 hc1.2]
        rw [ih (acc ++ [Except.ok none])
          (fun d hd => hv d (List.mem_cons_of_mem c hd))]
        simp
  exact main calls [] hcalls

/-- C8 witness: a concrete exhausted state (counter 80002) with two
subsequent calls, both returning `None`. -/
theorem C8_drbg_exhausted_witness :
    HMAC_DRBG.runGen2 (fun _ _ => List.replicate 32 7)
        ⟨List.replicate 32 0, List.replicate 32 1, 80002, 256⟩
        [(32, 256), (48, 128)] =
      ([.ok none, .ok none],
       ⟨List.replicate 32 0, List.replicate 32 1, 80002, 256⟩) := by
  have h := (C8_drbg_exhausted (fun _ _ => List.replicate 32 7)
    ⟨List.replicate 32 0, List.replicate 32 1, 80002, 256⟩ (by decide)).2
    [(32, 256), (48, 128)] (by decide)
  simpa using h

/-- C9: the DRBG is deterministic — two instances instantiated with the
same entropy and personalisation string, given the same sequence of
`generate(num_bytes)` calls, produce identical output sequences and end
in identical `(K, V, reseed_counter)` states.  (In the pure embedding the
whole computation is a function of the seed material and call sequence,
so this is definitional.) -/
theorem C9_drbg_deterministic (hm : List Nat → List Nat → List Nat)
    (e1 p1 e2 p2 : List Nat) (calls1 calls2 : List Nat)
    (he : e1 = e2) (hp : p1 = p2) (hcalls : calls1 = calls2) :
    (HMAC_DRBG.runGen hm (HMAC_DRBG.instantiate hm e1 p1 256) calls1).1 =
      (HMAC_DRBG.runGen hm (HMAC_DRBG.instantiate hm e2 p2 256) calls2).1 ∧
    (HMAC_DRBG.runGen hm (HMAC_DRBG.instantiate hm e1 p1 256) calls1).2 =
      (HMAC_DRBG.runGen hm (HMAC_DRBG.instantiate hm e2 p2 256) calls2).2 := by
  subst he hp hcalls
  exact ⟨rfl, rfl⟩

/-- C9 witness: two concrete instantiations from one entropy/"QRL"
personalisation and a three-call sequence. -/
theorem C9_drbg_deterministic_witness :
    (HMAC_DRBG.runGen (fun k d => k ++ d)
        (HMAC_DRBG.instantiate (fun k d => k ++ d) [1, 2] [3] 256)
        [4, 4, 4]).1 =
      (HMAC_DRBG.runGen (fun k d => k ++ d)
        (HMAC_DRBG.instantiate (fun k d => k ++ d) [1, 2] [3] 256)
        [4, 4, 4]).1 ∧
    (HMAC_DRBG.runGen (fun k d => k ++ d)
        (HMAC_DRBG.instantiate (fun k d => k ++ d) [1, 2] [3] 256)
        [4, 4, 4]).2 =
      (HMAC_DRBG.runGen (fun k d => k ++ d)
        (HMAC_DRBG.instantiate (fun k d => k ++ d) [1, 2] [3] 256)
        [4, 4, 4]).2 :=
  C9_drbg_deterministic (fun k d => k ++ d) [1, 2] [3] [1, 2] [3]
    [4, 4, 4] [4, 4, 4] rfl rfl rfl

/-- C10: `generate` fails atomically.  Every failing call — oversized
request (RuntimeError), excessive requested strength (RuntimeError), or
exhausted counter (`None`) — leaves `K`, `V` and `reseed_counter`
exactly as they were; conversely a call that returns bytes advances the
reseed counter, so state changes happen only on successful calls. -/
theorem C10_drbg_atomic_failure (hm : List Nat → List Nat → List Nat)
    (st : DRBGState) (nb rs : Nat) :
    (nb * 8 > 7500 ∨ rs > st.security_strength ∨
        80001 ≤ st.reseed_counter →
      (HMAC_DRBG.generate hm st nb rs).2 = st ∧
      ((HMAC_DRBG.generate hm st nb rs).1 = .error .tooLarge ∨
       (HMAC_DRBG.generate hm st nb rs).1 = .error .strength ∨
       (HMAC_DRBG.generate hm st nb rs).1 = .ok none)) ∧
    (nb * 8 ≤ 7500 → rs ≤ st.security_strength →
        st.reseed_counter < 80001 →
      (∃ out, (HMAC_DRBG.generate hm st nb rs).1 = .ok (some out)) ∧
      (HMAC_DRBG.generate hm st nb rs).2.reseed_counter =
        st.reseed_counter + 1) := by
  constructor
  · intro hfail
    unfold HMAC_DRBG.generate
    rcases Nat.lt_or_ge 7500 (nb * 8) with h1 | h1
    · rw [if_pos (by omega)]
      exact ⟨rfl, Or.inl rfl⟩
    · rw [if_neg (by omega)]
      rcases Nat.lt_or_ge st.security_strength rs with h2 | h2
      · rw [if_pos (by omega)]
        exact ⟨rfl, Or.inr (Or.inl rfl)⟩
      · rw [if_neg (by omega)]
        have h3 : 80001 ≤ st.reseed_counter := by
          rcases hfail with h | h | h <;> omega
        rw [if_pos (by omega)]
        exact ⟨rfl, Or.inr (Or.inr rfl)⟩
  · intro h1 h2 h3
    unfold HMAC_DRBG.generate
    rw [if_neg (by omega), if_neg (by omega), if_neg (by omega)]
    exact ⟨⟨_, rfl⟩, rfl⟩

/-- C10 witness: a concrete oversized request (938 bytes > 7500 bits)
leaves a concrete state untouched, and a concrete valid request advances
only the counter. -/
theorem C10_drbg_atomic_failure_witness :
    ((HMAC_DRBG.generate (fun _ _ => List.replicate 32 7)
        ⟨List.replicate 32 0, List.replicate 32 1, 5, 256⟩ 938 256).2 =
      ⟨List.replicate 32 0, List.replicate 32 1, 5, 256⟩ ∧
      ((HMAC_DRBG.generate (fun _ _ => List.replicate 32 7)
          ⟨List.replicate 32 0, List.replicate 32 1, 5, 256⟩ 938 256).1 =
            .error .tooLarge ∨
       (HMAC_DRBG.generate (fun _ _ => List.replicate 32 7)
          ⟨List.replicate 32 0, List.replicate 32 1, 5, 256⟩ 938 256).1 =
            .error .strength ∨
       (HMAC_DRBG.generate (fun _ _ => List.replicate 32 7)
          ⟨List.replicate 32 0, List.replicate 32 1, 5, 256⟩ 938 256).1 =
            .ok none)) ∧
    ((∃ out, (HMAC_DRBG.generate (fun _ _ => List.replicate 32 7)
        ⟨List.replicate 32 0, List.replicate 32 1, 5, 256⟩ 32 256).1 =
          .ok (some out)) ∧
      (HMAC_DRBG.generate (fun _ _ => List.replicate 32 7)
        ⟨List.replicate 32 0, List.replicate 32 1, 5, 256⟩ 32 256).2.reseed_counter = 5 + 1) :=
  ⟨(C10_drbg_atomic_failure (fun _ _ => List.replicate 32 7)
      ⟨List.replicate 32 0, List.replicate 32 1, 5, 256⟩ 938 256).1
      (Or.inl (by decide)),
   (C10_drbg_atomic_failure (fun _ _ => List.replicate 32 7)
      ⟨List.replicate 32 0, List.replicate 32 1, 5, 256⟩ 32 256).2
      (by decide) (by decide) (by decide)⟩

/-! ## C4 — plain Winternitz iteration counts -/

theorem getD_range_map {α : Type} (f : Nat → α) (n y : Nat) (d : α)
    (h : y < n) : ((List.range n).map f).getD y d = f y := by
  rw [List.getD_eq_getElem _ _ (by simpa using h)]
  simp

theorem list_eq_iff_getD {α : Type} (l1 l2 : List α) (d : α) :
    l1 = l2 ↔ (l1.length = l2.length ∧
      ∀ x, x < l2.length → l1.getD x d = l2.getD x d) := by
  constructor
  · rintro rfl
    exact ⟨rfl, fun _ _ => rfl⟩
  · rintro ⟨hlen, hx⟩
    apply List.ext_getElem hlen
    intro i h1 h2
    have := hx i h2
    rwa [List.getD_eq_getElem _ _ h1, List.getD_eq_getElem _ _ h2] at this

theorem verify_wkey_iff (H : String → String) (signature : List String)
    (message : String) (pub : List String) :
    verify_wkey H signature message pub = true ↔
      pub = (List.range signature.length).map (fun x =>
        hashIter H (msgByte H message x) (signature.getD x "")) := by
  unfold verify_wkey
  show (if pub ≠ (List.range signature.length).map (fun x =>
      hashIter H (msgByte H message x) (signature.getD x "")) then false
    else true) = true ↔ _
  split
  · simp only [Bool.false_eq_true, false_iff]
    assumption
  · simp only [true_iff]
    next h => exact of_not_not h

/-- C4 (amended): the signing loop of `sign_wkey` hashes `priv[i]`
exactly `256 - byte_i` times (not `255 - byte_i`): signature element `i`
equals `H^[256 - byte_i] priv[i]`.  Verification hashes each signature
element the remaining `byte_i` times and accepts iff the resulting list
coincides with the stored public key at every position (and in length). -/
theorem C4_wkey_iteration_counts (H : String → String) (priv : List String)
    (message : String) :
    (∀ y, y < priv.length →
      (sign_wkey H priv message).getD y "" =
        H^[256 - msgByte H message y] (priv.getD y "")) ∧
    (∀ signature pub,
      verify_wkey H signature message pub = true ↔
        (pub.length = signature.length ∧
         ∀ x, x < signature.length →
           pub.getD x "" =
             H^[msgByte H message x] (signature.getD x ""))) := by
  constructor
  · intro y hy
    unfold sign_wkey
    rw [getD_range_map _ _ _ _ hy, hashIter_eq_iterate]
  · intro signature pub
    rw [verify_wkey_iff, list_eq_iff_getD pub _ ""]
    simp only [List.length_map, List.length_range]
    constructor
    · rintro ⟨hlen, hx⟩
      refine ⟨hlen, fun x hxlt => ?_⟩
      have := hx x hxlt
      rwa [getD_range_map _ _ _ _ hxlt, hashIter_eq_iterate] at this
    · rintro ⟨hlen, hx⟩
      refine ⟨hlen, fun x hxlt => ?_⟩
      rw [getD_range_map _ _ _ _ hxlt, hashIter_eq_iterate]
      exact hx x hxlt

set_option maxRecDepth 4000

/-- C4 counterexample: with the hash stand-in `cH`, private key `["a"]`
and message `"m"` (digest byte 0), the code produces
`H^[256 - 0] "a"`, which differs from the claimed `H^[255 - 0] "a"`:
the claim's count `255 - byte_i` is off by one. -/
theorem C4_wkey_iteration_counts_counterexample :
    (sign_wkey cH ["a"] "m").getD 0 "" ≠
      cH^[255 - msgByte cH "m" 0] "a" := by
  decide

/-- C4 witness: the amended count evaluated concretely. -/
theorem C4_wkey_iteration_counts_witness :
    (sign_wkey cH ["a"] "m").getD 0 "" =
      cH^[256 - msgByte cH "m" 0] "a" :=
  (C4_wkey_iteration_counts cH ["a"] "m").1 0 (by decide)

/-! ## C1 — sign/verify round trips for the three OTS schemes -/

theorem toList_length (s : String) : s.toList.length = s.length := rfl

theorem getD_map {α β : Type} (f : α → β) (l : List α) (x : Nat) (d : β)
    (da : α) (h : x < l.length) :
    (l.map f).getD x d = f (l.getD x da) := by
  rw [List.getD_eq_getElem _ _ (by simpa using h),
    List.getD_eq_getElem _ _ h]
  simp

theorem map_eq_range_map {α β : Type} (f : α → β) (l : List α) (d : α) :
    l.map f = (List.range l.length).map (fun x => f (l.getD x d)) := by
  apply List.ext_getElem (by simp)
  intro i h1 h2
  have hi : i < l.length := by simpa using h1
  simp only [List.getElem_map, List.getElem_range]
  rw [List.getD_eq_getElem _ _ hi]

theorem random_wkey8_fst (H : String → String) (rand : List String) :
    (random_wkey H rand 8).1 = (List.range 32).map (fun x => rand.getD x "") := by
  norm_num [random_wkey]

theorem random_wkey8_snd (H : String → String) (rand : List String) :
    (random_wkey H rand 8).2 =
      (List.range 32).map (fun x => H (hashIter H 255 (rand.getD x ""))) := by
  norm_num [random_wkey]

/-- Part 1 of C1: the plain Winternitz round trip (`w = 8`). -/
theorem wkey_roundtrip (H : String → String) (rand : List String)
    (msg : String) :
    verify_wkey H (sign_wkey H (random_wkey H rand 8).1 msg) msg
      (random_wkey H rand 8).2 = true := by
  rw [verify_wkey_iff, random_wkey8_fst, random_wkey8_snd]
  have hlensig : (sign_wkey H ((List.range 32).map (fun x => rand.getD x ""))
      msg).length = 32 := by
    unfold sign_wkey
    simp
  rw [hlensig]
  apply List.map_congr_left
  intro x hx
  have hx32 : x < 32 := List.mem_range.mp hx
  have hsig : (sign_wkey H ((List.range 32).map (fun x => rand.getD x ""))
      msg).getD x "" = hashIter H (256 - msgByte H msg x) (rand.getD x "") := by
    unfold sign_wkey
    rw [getD_range_map _ _ _ _ (by simpa using hx32),
      getD_range_map _ _ _ _ hx32]
  rw [hsig, hashIter_eq_iterate, hashIter_eq_iterate, hashIter_eq_iterate,
    ← Function.iterate_add_apply]
  have hb := msgByte_le H msg x
  rw [show msgByte H msg x + (256 - msgByte H msg x) = 256 by omega]
  exact (Function.iterate_succ_apply' H 255 (rand.getD x "")).symm

theorem unhexlify_go_length (l : List Char) :
    (unhexlify.go l).length = l.length / 2 := by
  induction l using unhexlify.go.induct with
  | case1 a c t ih =>
      rw [unhexlify.go]
      simp only [List.length_cons, ih]
      omega
  | case2 l h =>
      rw [unhexlify.go]
      · rcases l with _ | ⟨a, _ | ⟨c, t⟩⟩
        · rfl
        · simp
        · exact absurd rfl (h a c t)
      · exact h

theorem unhexlify_length (s : String) :
    (unhexlify s).length = s.length / 2 := by
  unfold unhexlify
  rw [unhexlify_go_length, toList_length]

theorem binGo_length_le : ∀ (k n : Nat), n < 2 ^ k → (binGo n).length ≤ k := by
  intro k
  induction k with
  | zero =>
      intro n hn
      interval_cases n
      rw [binGo]
      simp
  | succ k ih =>
      intro n hn
      match n with
      | 0 =>
          rw [binGo]
          simp
      | m + 1 =>
          rw [binGo]
          simp only [List.length_append, List.length_cons, List.length_nil]
          have hdiv : (m + 1) / 2 < 2 ^ k := by
            have h2 : 2 ^ (k + 1) = 2 * 2 ^ k := by ring
            omega
          have := ih ((m + 1) / 2) hdiv
          omega

theorem binDigits_length_le (b : Nat) (hb : b < 256) :
    (binDigits b).length ≤ 8 := by
  unfold binDigits
  split
  · simp
  · exact binGo_length_le 8 b hb

theorem pyBinPad8_length (b : Nat) (hb : b < 256) :
    (pyBinPad8 b).length = 8 := by
  unfold pyBinPad8
  have := binDigits_length_le b hb
  simp only [List.length_append, List.length_replicate]
  omega

theorem sum_map_const {α : Type} (l : List α) (f : α → Nat) (c : Nat)
    (h : ∀ x ∈ l, f x = c) : (l.map f).sum = c * l.length := by
  induction l with
  | nil => simp
  | cons a t ih =>
      simp only [List.map_cons, List.sum_cons, List.length_cons]
      rw [h a (List.mem_cons_self a t),
        ih (fun x hx => h x (List.mem_cons_of_mem a hx))]
      ring

theorem lbits_length (H : String → String) (msg : String)
    (hlen : (H msg).length = 64) : (lbits H msg).length = 256 := by
  unfold lbits
  rw [List.length_flatten, List.map_map]
  rw [sum_map_const _ _ 8]
  · rw [unhexlify_length, hlen]
  · intro b hb
    simp only [Function.comp_apply, List.length_reverse]
    exact pyBinPad8_length b (unhexlify_lt _ b hb)

/-- Part 2 of C1: the Lamport-Diffie round trip. -/
theorem lkey_roundtrip (H : String → String) (rand : List (String × String))
    (msg : String) (hlen : (H msg).length = 64) :
    verify_lkey H (sign_lkey H (random_lkey H rand 256).1 msg) msg
      (random_lkey H rand 256).2 = true := by
  unfold verify_lkey
  rw [List.all_eq_true]
  intro p hp
  simp only [List.mem_map, List.mem_range] at hp
  obtain ⟨z, hz, hpz⟩ := hp
  rw [lbits_length H msg hlen] at hz
  have hsig : (sign_lkey H (random_lkey H rand 256).1 msg).getD z "" =
      (if (lbits H msg).getD z '0' = '0' then (rand.getD z ("", "")).1
       else (rand.getD z ("", "")).2) := by
    unfold sign_lkey
    rw [getD_range_map _ _ _ _ (by rw [lbits_length H msg hlen]; exact hz)]
    unfold random_lkey
    rw [getD_range_map _ _ _ _ hz]
  have hpub : (random_lkey H rand 256).2.getD z ("", "") =
      (H (rand.getD z ("", "")).1, H (rand.getD z ("", "")).2) := by
    unfold random_lkey
    rw [getD_range_map _ _ _ _ hz]
  subst hpz
  rw [hsig, hpub]
  split <;> simp

theorem hexGo_zero : hexGo 0 = [] := by rw [hexGo]

theorem hexGo_pos (n : Nat) (h : 0 < n) :
    hexGo n = hexGo (n / 16) ++ [hexChar (n % 16)] := by
  match n with
  | m + 1 => rw [hexGo]

theorem hexGo_length1 (n : Nat) (h1 : 1 ≤ n) (h2 : n < 16) :
    (hexGo n).length = 1 := by
  rw [hexGo_pos n (by omega), show n / 16 = 0 by omega, hexGo_zero]
  rfl

theorem hexGo_length2 (n : Nat) (h1 : 16 ≤ n) (h2 : n < 256) :
    (hexGo n).length = 2 := by
  rw [hexGo_pos n (by omega)]
  rw [List.length_append, hexGo_length1 (n / 16) (by omega) (by omega)]
  rfl

theorem hexGo_length3 (n : Nat) (h1 : 256 ≤ n) (h2 : n < 4096) :
    (hexGo n).length = 3 := by
  rw [hexGo_pos n (by omega)]
  rw [List.length_append, hexGo_length2 (n / 16) (by omega) (by omega)]
  rfl

theorem wpChecksum_le (H : String → String) (message : String) :
    wpChecksum H message ≤ 960 := by
  unfold wpChecksum
  have h := List.sum_le_card_nsmul
    ((List.range 64).map (fun x => 15 - wpMsgDigit H message x)) 15 ?_
  · simpa using h
  · intro x hx
    simp only [List.mem_map] at hx
    obtain ⟨y, _, rfl⟩ := hx
    omega

theorem hexDigits_length_of_ge16 (n : Nat) (h1 : 16 ≤ n) (h2 : n ≤ 960) :
    (hexDigits n).length = 2 ∨ (hexDigits n).length = 3 := by
  unfold hexDigits
  rw [if_neg (by omega)]
  rcases Nat.lt_or_ge n 256 with h | h
  · exact Or.inl (hexGo_length2 n h1 h)
  · exact Or.inr (hexGo_length3 n h (by omega))

theorem wpChecksumChars_length (H : String → String) (message : String)
    (h : 16 ≤ wpChecksum H message) :
    (wpChecksumChars H message).length = 3 := by
  unfold wpChecksumChars
  rcases hexDigits_length_of_ge16 (wpChecksum H message) h
    (wpChecksum_le H message) with h2 | h3
  · rw [if_pos (by omega)]
    simp [h2]
  · rw [if_neg (by omega)]
    exact h3

theorem wpChecksumChars_short (H : String → String) (message : String)
    (h : wpChecksum H message < 16) :
    (wpChecksumChars H message).length = 2 := by
  unfold wpChecksumChars
  have hlen1 : (hexDigits (wpChecksum H message)).length = 1 := by
    unfold hexDigits
    split
    · rfl
    · exact hexGo_length1 _ (by omega) h
  rw [if_pos (by omega)]
  simp [hlen1]

theorem wpDigits_some (H : String → String) (message : String)
    (h : 16 ≤ wpChecksum H message) :
    wpDigits H message =
      some ((List.range 64).map (wpMsgDigit H message) ++
        (List.range 3).map (fun x =>
          hexVal ((wpChecksumChars H message).getD x '0'))) := by
  unfold wpDigits
  rw [if_neg (by rw [wpChecksumChars_length H message h]; omega)]

theorem wpDigits_none (H : String → String) (message : String)
    (h : wpChecksum H message < 16) : wpDigits H message = none := by
  unfold wpDigits
  rw [if_pos (by rw [wpChecksumChars_short H message h]; omega)]

theorem wpDigits_length (H : String → String) (message : String) (s : List Nat)
    (h : wpDigits H message = some s) : s.length = 67 := by
  rcases Nat.lt_or_ge (wpChecksum H message) 16 with hc | hc
  · rw [wpDigits_none H message hc] at h
    exact absurd h (by simp)
  · rw [wpDigits_some H message hc] at h
    simp only [Option.some.injEq] at h
    subst h
    simp

theorem wpDigits_le15 (H : String → String) (message : String) (s : List Nat)
    (h : wpDigits H message = some s) : ∀ x, s.getD x 0 ≤ 15 := by
  have hlen : s.length = 67 := wpDigits_length H message s h
  rcases Nat.lt_or_ge (wpChecksum H message) 16 with hc | hc
  · rw [wpDigits_none H message hc] at h
    exact absurd h (by simp)
  · rw [wpDigits_some H message hc] at h
    simp only [Option.some.injEq] at h
    subst h
    intro x
    rcases Nat.lt_or_ge x 67 with hx | hx
    · rw [List.getD_eq_getElem _ _ (by simpa using hx)]
      rcases Nat.lt_or_ge x 64 with hx64 | hx64
      · rw [List.getElem_append_left (by simpa using hx64)]
        simp only [List.getElem_map, List.getElem_range]
        exact hexVal_le _
      · rw [List.getElem_append_right (by simpa using hx64)]
        simp only [List.getElem_map]
        exact hexVal_le _
    · rw [List.getD_eq_default]
      · omega
      · simpa using hx

theorem random_wpkey_fst (H : String → String) (rand : List String)
    (rk : String) :
    (random_wpkey H rand rk).1 =
      ((List.range 82).map (fun x => rand.getD x "")).take 67 := rfl

theorem random_wpkey_parts (H : String → String) (rand : List String)
    (rk : String) :
    (random_wpkey H rand rk).2.r =
      ((List.range 82).map (fun x => rand.getD x "")).drop 67 ∧
    (random_wpkey H rand rk).2.k = rk ∧
    (random_wpkey H rand rk).2.chain =
      (((List.range 82).map (fun x => rand.getD x "")).take 67).map
        (fun sk_ => chain_fn H sk_
          (((List.range 82).map (fun x => rand.getD x "")).drop 67) 15 rk) :=
  ⟨rfl, rfl, rfl⟩

/-- Part 3 of C1: the Winternitz+ round trip, under the reachability
condition that the message checksum is at least 16 (otherwise
`sign_wpkey` raises an `IndexError` on the checksum encoding, see C3). -/
theorem wp_roundtrip (H : String → String) (rand : List String)
    (rk msg : String) (hchk : 16 ≤ wpChecksum H msg) :
    ∃ sig, sign_wpkey H (random_wpkey H rand rk).1 msg
        (random_wpkey H rand rk).2 = some sig ∧
      verify_wpkey H sig msg (random_wpkey H rand rk).2 = some true := by
  obtain ⟨hr, hk, hchain⟩ := random_wpkey_parts H rand rk
  set sk := (List.range 82).map (fun x => rand.getD x "") with hsk
  set s := (List.range 64).map (wpMsgDigit H msg) ++
    (List.range 3).map (fun x =>
      hexVal ((wpChecksumChars H msg).getD x '0')) with hs
  have hdig : wpDigits H msg = some s := wpDigits_some H msg hchk
  have hle15 : ∀ x, s.getD x 0 ≤ 15 := wpDigits_le15 H msg s hdig
  refine ⟨(List.range 67).map (fun x =>
    chain_fn H ((random_wpkey H rand rk).1.getD x "")
      (random_wpkey H rand rk).2.r (s.getD x 0)
      (random_wpkey H rand rk).2.k), ?_, ?_⟩
  · unfold sign_wpkey
    rw [hdig]
    rfl
  · unfold verify_wpkey
    rw [hdig]
    simp only [Option.map_some', Option.some.injEq, decide_eq_true_eq]
    rw [hchain, hr, hk, random_wpkey_fst]
    have hlen : (sk.take 67).length = 67 := by
      rw [List.length_take, hsk]
      simp
    rw [map_eq_range_map (fun sk_ => chain_fn H sk_ (sk.drop 67) 15 rk)
      (sk.take 67) "", hlen]
    apply List.map_congr_left
    intro x hx
    have hx67 : x < 67 := List.mem_range.mp hx
    rw [getD_range_map _ _ _ _ hx67]
    exact chain_resume_aux H _ (sk.drop 67) rk (s.getD x 0) (hle15 x)

/-- C1 (amended): for every hash function `H`, key material and non-empty
message, the sign/verify round trip succeeds for all three schemes, with
the qualifications the code forces: the Lamport part needs the digest to
have the 64 characters SHA-256 produces, and the Winternitz+ part needs
the message checksum to be at least 16 — for smaller checksums
`sign_wpkey` raises an `IndexError` on the checksum encoding instead of
returning a signature (see the counterexample and C3). -/
theorem C1_ots_sign_verify_roundtrip (H : String → String) :
    (∀ rand msg, msg ≠ "" →
      verify_wkey H (sign_wkey H (random_wkey H rand 8).1 msg) msg
        (random_wkey H rand 8).2 = true) ∧
    (∀ rand msg, msg ≠ "" → (H msg).length = 64 →
      verify_lkey H (sign_lkey H (random_lkey H rand 256).1 msg) msg
        (random_lkey H rand 256).2 = true) ∧
    (∀ rand rk msg, msg ≠ "" → 16 ≤ wpChecksum H msg →
      ∃ sig, sign_wpkey H (random_wpkey H rand rk).1 msg
          (random_wpkey H rand rk).2 = some sig ∧
        verify_wpkey H sig msg (random_wpkey H rand rk).2 = some true) :=
  ⟨fun rand msg _ => wkey_roundtrip H rand msg,
   fun rand msg _ hlen => lkey_roundtrip H rand msg hlen,
   fun rand rk msg _ hchk => wp_roundtrip H rand rk msg hchk⟩

/-- C1 counterexample: under the all-`f` digest (checksum 0) the
Winternitz+ signer fails (Python `IndexError` on `c[2]`, embedded as
`none`), so no signature exists and the claimed round trip
`verify_wpkey (sign_wpkey priv m pub) m pub == True` does not hold for
every message. -/
theorem C1_ots_sign_verify_roundtrip_counterexample :
    sign_wpkey cHff (random_wpkey cHff (List.replicate 82 "0") "0").1 "m"
      (random_wpkey cHff (List.replicate 82 "0") "0").2 = none := by
  have h : wpChecksum cHff "m" < 16 := by decide
  unfold sign_wpkey
  rw [wpDigits_none cHff "m" h]
  rfl

/-- C1 witness: the three round trips at concrete inputs (the Winternitz+
part under the all-`0` digest, checksum 960 ≥ 16). -/
theorem C1_ots_sign_verify_roundtrip_witness :
    verify_wkey cH (sign_wkey cH (random_wkey cH ["r0"] 8).1 "m") "m"
      (random_wkey cH ["r0"] 8).2 = true ∧
    verify_lkey cHff
      (sign_lkey cHff (random_lkey cHff [("a", "b")] 256).1 "m") "m"
      (random_lkey cHff [("a", "b")] 256).2 = true ∧
    (∃ sig, sign_wpkey cH0 (random_wpkey cH0 (List.replicate 82 "s") "k").1
        "m" (random_wpkey cH0 (List.replicate 82 "s") "k").2 = some sig ∧
      verify_wpkey cH0 sig "m"
        (random_wpkey cH0 (List.replicate 82 "s") "k").2 = some true) :=
  ⟨(C1_ots_sign_verify_roundtrip cH).1 ["r0"] "m" (by decide),
   (C1_ots_sign_verify_roundtrip cHff).2.1 [("a", "b")] "m" (by decide)
     (by decide),
   (C1_ots_sign_verify_roundtrip cH0).2.2 (List.replicate 82 "s") "k" "m"
     (by decide) (by decide)⟩

/-! ## C3 — Winternitz+ checksum encoding and signature length -/

/-- C3 (amended): the checksum encoding emits exactly `l2 = 3` digits
(padding a single zero on the left) only when the checksum is at least
16; then the digit sequence `s` has exactly 67 entries and `sign_wpkey`
returns a signature of exactly 67 elements.  When the checksum is below
16, the single zero-pad of the source yields only 2 characters, reading
`c[2]` raises `IndexError`, and `sign_wpkey` fails instead of returning
a signature. -/
theorem C3_wp_checksum_encoding (H : String → String) (priv : List String)
    (msg : String) (pub : WPPub) :
    (16 ≤ wpChecksum H msg →
      (wpChecksumChars H msg).length = 3 ∧
      (∃ s, wpDigits H msg = some s ∧ s.length = 67) ∧
      (∃ sig, sign_wpkey H priv msg pub = some sig ∧ sig.length = 67)) ∧
    (wpChecksum H msg < 16 →
      (wpChecksumChars H msg).length = 2 ∧
      sign_wpkey H priv msg pub = none) := by
  constructor
  · intro h
    refine ⟨wpChecksumChars_length H msg h,
      ⟨_, wpDigits_some H msg h, wpDigits_length H msg _ (wpDigits_some H msg h)⟩, ?_⟩
    unfold sign_wpkey
    rw [wpDigits_some H msg h]
    exact ⟨_, rfl, by simp⟩
  · intro h
    refine ⟨wpChecksumChars_short H msg h, ?_⟩
    unfold sign_wpkey
    rw [wpDigits_none H msg h]
    rfl

/-- C3 counterexample: for the all-`f` digest the checksum is 0; the
encoding has only 2 characters (`'00'`), not 3, and `sign_wpkey` fails
(`IndexError`, embedded as `none`) instead of returning a 67-element
signature. -/
theorem C3_wp_checksum_encoding_counterexample :
    (wpChecksumChars cHff "m").length = 2 ∧
    sign_wpkey cHff [] "m" ⟨[], "", []⟩ = none := by
  constructor
  · decide
  · have h : wpChecksum cHff "m" < 16 := by decide
    unfold sign_wpkey
    rw [wpDigits_none cHff "m" h]
    rfl

/-- C3 witness: both branches evaluated at concrete digests (all-`0`,
checksum 960; all-`f`, checksum 0). -/
theorem C3_wp_checksum_encoding_witness :
    ((wpChecksumChars cH0 "m").length = 3 ∧
      (∃ s, wpDigits cH0 "m" = some s ∧ s.length = 67) ∧
      (∃ sig, sign_wpkey cH0 [] "m" ⟨[], "", []⟩ = some sig ∧
        sig.length = 67)) ∧
    ((wpChecksumChars cHff "m").length = 2 ∧
      sign_wpkey cHff [] "m" ⟨[], "", []⟩ = none) :=
  ⟨(C3_wp_checksum_encoding cH0 [] "m" ⟨[], "", []⟩).1 (by decide),
   (C3_wp_checksum_encoding cHff [] "m" ⟨[], "", []⟩).2 (by decide)⟩

/-! ## Merkle layer structure (C7 groundwork) -/

theorem getD_cons2 {α : Type} (a b : α) (t : List α) (y : Nat) (d : α) :
    (a :: b :: t).getD (y + 2) d = t.getD y d := rfl

theorem clStep_shift (H : String → String) (a b : String) (t : List String) :
    ∀ (m : Nat) (y : Nat) (acc : List String) (h : String),
      (clStep H (a :: b :: t))^[m] (y + 2, h :: acc) =
        (((clStep H t)^[m] (y, acc)).1 + 2,
         h :: ((clStep H t)^[m] (y, acc)).2) := by
  intro m
  induction m with
  | zero => intro y acc h; rfl
  | succ m ih =>
      intro y acc h
      rw [Function.iterate_succ_apply, Function.iterate_succ_apply]
      have hcond : (y + 2) + 1 = (a :: b :: t).length ↔ y + 1 = t.length := by
        simp only [List.length_cons]
        omega
      by_cases hy : y + 1 = t.length
      · have h1 : clStep H (a :: b :: t) (y + 2, h :: acc) =
            (y + 2, h :: (acc ++ [t.getD y ""])) := by
          unfold clStep
          rw [if_pos (hcond.mpr hy)]
          simp [getD_cons2]
        have h2 : clStep H t (y, acc) = (y, acc ++ [t.getD y ""]) := by
          unfold clStep
          rw [if_pos hy]
        rw [h1, h2, ih y (acc ++ [t.getD y ""]) h]
      · have h1 : clStep H (a :: b :: t) (y + 2, h :: acc) =
            (y + 2 + 2, h :: (acc ++
              [H (t.getD y "" ++ t.getD (y + 1) "")])) := by
          unfold clStep
          rw [if_neg (fun hc => hy (hcond.mp hc))]
          simp only [getD_cons2]
          rfl
        have h2 : clStep H t (y, acc) =
            (y + 2, acc ++ [H (t.getD y "" ++ t.getD (y + 1) "")]) := by
          unfold clStep
          rw [if_neg hy]
        rw [h1, h2]
        exact ih (y + 2) _ h

/-- The loop of `create_tree` computes exactly the pairwise hash layer
with odd carry. -/
theorem create_layer_eq (H : String → String) :
    ∀ hl, create_layer H hl = pairHash H hl
  | [] => rfl
  | [a] => by
      unfold create_layer
      rw [show [a].length % 2 + [a].length / 2 = 1 by simp,
        Function.iterate_one]
      unfold clStep
      rw [if_pos (by rfl)]
      rfl
  | a :: b :: t => by
      unfold create_layer
      have hcy : (a :: b :: t).length % 2 + (a :: b :: t).length / 2 =
          (t.length % 2 + t.length / 2) + 1 := by
        simp only [List.length_cons]
        omega
      rw [hcy, Function.iterate_succ_apply]
      have hfirst : clStep H (a :: b :: t) (0, []) =
          (0 + 2, H (a ++ b) :: []) := by
        unfold clStep
        rw [if_neg (by simp only [List.length_cons]; omega)]
        rfl
      rw [hfirst, clStep_shift H a b t _ 0 [] (H (a ++ b))]
      show H (a ++ b) :: ((clStep H t)^[_] (0, [])).2 = _
      rw [show ((clStep H t)^[t.length % 2 + t.length / 2] (0, [])).2 =
        create_layer H t from rfl]
      rw [create_layer_eq H t]
      rfl

theorem pairHash_length (H : String → String) :
    ∀ l, (pairHash H l).length = (l.length + 1) / 2
  | [] => rfl
  | [a] => by simp [pairHash]
  | a :: b :: t => by
      show (pairHash H t).length + 1 = _
      rw [pairHash_length H t]
      simp only [List.length_cons]
      omega

theorem pairHash_getD_pair (H : String → String) :
    ∀ (l : List String) (q : Nat), 2 * q + 1 < l.length →
      (pairHash H l).getD q "" =
        H (l.getD (2 * q) "" ++ l.getD (2 * q + 1) "")
  | [], q, h => by simp at h
  | [a], q, h => by simp at h
  | a :: b :: t, 0, h => rfl
  | a :: b :: t, q + 1, h => by
      show (pairHash H t).getD q "" = _
      rw [pairHash_getD_pair H t q (by simp only [List.length_cons] at h; omega)]
      rfl

theorem pairHash_getD_carry (H : String → String) :
    ∀ (l : List String) (q : Nat), l.length = 2 * q + 1 →
      (pairHash H l).getD q "" = l.getD (2 * q) ""
  | [], q, h => by simp at h
  | [a], 0, h => rfl
  | [a], q + 1, h => by simp at h
  | a :: b :: t, 0, h => by simp at h
  | a :: b :: t, q + 1, h => by
      show (pairHash H t).getD q "" = _
      rw [pairHash_getD_carry H t q (by simp only [List.length_cons] at h; omega)]
      rfl

theorem layersFrom_length (H : String → String) :
    ∀ (k : Nat) (l : List String), (layersFrom H l k).length = k := by
  intro k
  induction k with
  | zero => intro l; rfl
  | succ k ih => intro l; simp [layersFrom, ih]

theorem create_tree_length (H : String → String) (base : List String) :
    (create_tree H base).length = num_branches base.length + 1 := by
  unfold create_tree
  simp [layersFrom_length]

theorem layersFrom_getD (H : String → String) :
    ∀ (k : Nat) (l : List String) (j : Nat), j < k →
      (layersFrom H l k).getD j [] = (pairHash H)^[j + 1] l := by
  intro k
  induction k with
  | zero => intro l j hj; omega
  | succ k ih =>
      intro l j hj
      match j with
      | 0 =>
          show create_layer H l = _
          rw [create_layer_eq]
          rfl
      | j + 1 =>
          show (layersFrom H (create_layer H l) k).getD j [] = _
          rw [ih (create_layer H l) j (by omega), create_layer_eq,
            ← Function.iterate_succ_apply]

theorem layerAt_eq (H : String → String) (base : List String) (j : Nat)
    (hj : j ≤ num_branches base.length) :
    layerAt H base j = (pairHash H)^[j] base := by
  unfold layerAt create_tree
  match j with
  | 0 => rfl
  | j + 1 =>
      show (layersFrom H base (num_branches base.length)).getD j [] = _
      exact layersFrom_getD H _ base j (by omega)

theorem treeRoot_eq (H : String → String) (base : List String) :
    treeRoot H base = layerAt H base (num_branches base.length) := by
  unfold treeRoot layerAt
  rw [List.getLastD_eq_getLast?, List.getLast?_eq_getElem?,
    List.getD_eq_getElem?_getD, create_tree_length, Nat.add_sub_cancel]

theorem layerAt_length (H : String → String) (base : List String) (j : Nat)
    (hj : j ≤ num_branches base.length) :
    (layerAt H base j).length = (fun c => (c + 1) / 2)^[j] base.length := by
  rw [layerAt_eq H base j hj]
  induction j with
  | zero => rfl
  | succ j ih =>
      rw [Function.iterate_succ_apply', Function.iterate_succ_apply',
        pairHash_length, ih (by omega)]

theorem branches_table :
    ∀ n, n < 513 → 1 ≤ n →
      ((fun c => (c + 1) / 2)^[num_branches n] n = 1 ∧
       (2 ≤ n → ∀ j, j < num_branches n →
         2 ≤ (fun c => (c + 1) / 2)^[j] n)) := by
  decide

/-! ## C7 — Merkle layer invariant -/

/-- C7: for every non-empty base of at most 512 leaves, each layer after
the base is the pairwise-hash image of the previous one: its length is
`ceil(len(prev)/2)`, element `q` is `H(prev[2q] ++ prev[2q+1])`, and when
the previous layer has odd length its last element is carried up
unchanged; after `num_branches` iterations (from the leaf-count lookup
table) the final layer is the root, a single element. -/
theorem C7_merkle_layer_invariant (H : String → String)
    (base : List String) (h1 : 1 ≤ base.length)
    (h512 : base.length ≤ 512) :
    (∀ j, j < num_branches base.length →
      layerAt H base (j + 1) = pairHash H (layerAt H base j) ∧
      (layerAt H base (j + 1)).length =
        ((layerAt H base j).length + 1) / 2 ∧
      (∀ q, 2 * q + 1 < (layerAt H base j).length →
        (layerAt H base (j + 1)).getD q "" =
          H ((layerAt H base j).getD (2 * q) "" ++
             (layerAt H base j).getD (2 * q + 1) "")) ∧
      (∀ q, (layerAt H base j).length = 2 * q + 1 →
        (layerAt H base (j + 1)).getD q "" =
          (layerAt H base j).getD (2 * q) "")) ∧
    (create_tree H base).length = num_branches base.length + 1 ∧
    treeRoot H base = layerAt H base (num_branches base.length) ∧
    (treeRoot H base).length = 1 := by
  have hmain : ∀ j, j < num_branches base.length →
      layerAt H base (j + 1) = pairHash H (layerAt H base j) := by
    intro j hj
    rw [layerAt_eq H base (j + 1) (by omega), layerAt_eq H base j (by omega),
      Function.iterate_succ_apply']
  refine ⟨fun j hj => ⟨hmain j hj, ?_, ?_, ?_⟩, create_tree_length H base,
    treeRoot_eq H base, ?_⟩
  · rw [hmain j hj, pairHash_length]
  · intro q hq
    rw [hmain j hj]
    exact pairHash_getD_pair H _ q hq
  · intro q hq
    rw [hmain j hj]
    exact pairHash_getD_carry H _ q hq
  · rw [treeRoot_eq, layerAt_length H base _ (le_refl _)]
    exact (branches_table base.length (by omega) h1).1

/-- C7 witness: the invariant evaluated on a concrete 3-leaf tree (one
odd layer, so the carry branch is exercised). -/
theorem C7_merkle_layer_invariant_witness :
    layerAt cH ["a", "b", "c"] 1 = pairHash cH (layerAt cH ["a", "b", "c"] 0) ∧
    (layerAt cH ["a", "b", "c"] 1).getD 1 "" =
      (layerAt cH ["a", "b", "c"] 0).getD 2 "" ∧
    (create_tree cH ["a", "b", "c"]).length = 3 ∧
    (treeRoot cH ["a", "b", "c"]).length = 1 := by
  have h := C7_merkle_layer_invariant cH ["a", "b", "c"] (by decide) (by decide)
  refine ⟨(h.1 0 (by decide)).1, ?_, ?_, h.2.2.2⟩
  · exact (h.1 0 (by decide)).2.2.2 1 (by decide)
  · rw [h.2.1]
    decide

/-! ## C6 — verify_root totality -/

/-- C6: contrary to the claim, `verify_root` is not total.  On the
concrete input `pub = ["a"]`, root `"r"`, path `[["ha", "b"]]` (a path
whose last element is a pair, not a singleton), the hashed public key is
found in the first path element, the loop computes the pair's hash and
then reads `merkle_path[x+1]` past the end of the path: Python raises
`IndexError` (embedded as `none`) instead of returning a boolean.  A
path containing an element of length `< 2` (other than a terminal
singleton) likewise raises on `merkle_path[x][0]` / `[1]`. -/
theorem C6_verify_root_raises :
    verify_root cH ["a"] "r" [["ha", "b"]] = none := by
  decide

/-! ## C5 — route_proof and verify_root (groundwork) -/

theorem foldl_no_change {α β : Type} (f : β → α → β) (st : β) :
    ∀ l : List α, (∀ a ∈ l, f st a = st) → l.foldl f st = st := by
  intro l
  induction l with
  | nil => intro _; rfl
  | cons a t ih =>
      intro h
      rw [List.foldl_cons, h a (List.mem_cons_self a t)]
      exact ih (fun x hx => h x (List.mem_cons_of_mem a hx))

theorem innerStep_keep (H : String → String) (node : String)
    (st : String × List (List String)) (nh : String)
    (h1 : H (st.1 ++ node) ≠ nh) (h2 : H (node ++ st.1) ≠ nh) :
    innerStep H node st nh = st := by
  unfold innerStep
  rw [if_neg h1, if_neg h2]

theorem innerFold_no (H : String → String) (node : String)
    (above : List String) (st : String × List (List String))
    (h : ∀ nh ∈ above, H (st.1 ++ node) ≠ nh ∧ H (node ++ st.1) ≠ nh) :
    above.foldl (innerStep H node) st = st :=
  foldl_no_change _ st above
    (fun nh hnh => innerStep_keep H node st nh (h nh hnh).1 (h nh hnh).2)

theorem innerFold_hit1 (H : String → String) (node : String)
    (st : String × List (List String)) (pre post : List String) (nh : String)
    (hpre : ∀ x ∈ pre, H (st.1 ++ node) ≠ x ∧ H (node ++ st.1) ≠ x)
    (hmatch : H (st.1 ++ node) = nh)
    (hpost : ∀ x ∈ post, H (nh ++ node) ≠ x ∧ H (node ++ nh) ≠ x) :
    (pre ++ nh :: post).foldl (innerStep H node) st =
      (nh, st.2 ++ [[st.1, node]]) := by
  rw [List.foldl_append, innerFold_no H node pre st hpre, List.foldl_cons]
  have hstep : innerStep H node st nh = (nh, st.2 ++ [[st.1, node]]) := by
    unfold innerStep
    rw [if_pos hmatch]
  rw [hstep]
  exact innerFold_no H node post _ hpost

theorem innerFold_hit2 (H : String → String) (node : String)
    (st : String × List (List String)) (pre post : List String) (nh : String)
    (hpre : ∀ x ∈ pre, H (st.1 ++ node) ≠ x ∧ H (node ++ st.1) ≠ x)
    (hm1 : H (st.1 ++ node) ≠ nh)
    (hm2 : H (node ++ st.1) = nh)
    (hpost : ∀ x ∈ post, H (nh ++ node) ≠ x ∧ H (node ++ nh) ≠ x) :
    (pre ++ nh :: post).foldl (innerStep H node) st =
      (nh, st.2 ++ [[node, st.1]]) := by
  rw [List.foldl_append, innerFold_no H node pre st hpre, List.foldl_cons]
  have hstep : innerStep H node st nh = (nh, st.2 ++ [[node, st.1]]) := by
    unfold innerStep
    rw [if_neg hm1, if_pos hm2]
  rw [hstep]
  exact innerFold_no H node post _ hpost

theorem nodeStep_keep (H : String → String) (above : List String)
    (st : String × List (List String)) (node : String)
    (h : st.1 = node ∨
      (∀ nh ∈ above, H (st.1 ++ node) ≠ nh ∧ H (node ++ st.1) ≠ nh)) :
    nodeStep H above st node = st := by
  unfold nodeStep
  rcases h with h | h
  · rw [if_neg (by simpa using h)]
  · split
    · exact innerFold_no H node above st h
    · rfl

theorem mem_take_pos {α : Type} (l : List α) (m : Nat) (a : α) (d : α)
    (h : a ∈ l.take m) :
    ∃ q, q < m ∧ q < l.length ∧ l.getD q d = a := by
  rw [List.mem_iff_getElem] at h
  obtain ⟨i, hi, hval⟩ := h
  have him : i < m ∧ i < l.length := by
    rw [List.length_take] at hi
    omega
  refine ⟨i, him.1, him.2, ?_⟩
  rw [List.getD_eq_getElem _ _ him.2, ← hval, List.getElem_take]

theorem mem_drop_pos {α : Type} (l : List α) (m : Nat) (a : α) (d : α)
    (h : a ∈ l.drop m) :
    ∃ q, m ≤ q ∧ q < l.length ∧ l.getD q d = a := by
  rw [List.mem_iff_getElem] at h
  obtain ⟨i, hi, hval⟩ := h
  have him : m + i < l.length := by
    rw [List.length_drop] at hi
    omega
  refine ⟨m + i, by omega, him, ?_⟩
  rw [List.getD_eq_getElem _ _ him, ← hval, List.getElem_drop]

theorem mem_list_pos {α : Type} (l : List α) (a : α) (d : α) (h : a ∈ l) :
    ∃ q, q < l.length ∧ l.getD q d = a := by
  rw [List.mem_iff_getElem] at h
  obtain ⟨i, hi, hval⟩ := h
  refine ⟨i, hi, ?_⟩
  rw [List.getD_eq_getElem _ _ hi, hval]

theorem nodup_getD_ne (l : List String) (h : l.Nodup) (p q : Nat)
    (hp : p < l.length) (hq : q < l.length) (hne : p ≠ q) :
    l.getD p "" ≠ l.getD q "" := by
  rw [List.getD_eq_getElem _ _ hp, List.getD_eq_getElem _ _ hq]
  intro heq
  exact hne ((h.getElem_inj_iff).mp heq)

theorem layerAt_succ (H : String → String) (base : List String) (j : Nat)
    (hj : j < num_branches base.length) :
    layerAt H base (j + 1) = pairHash H (layerAt H base j) := by
  rw [layerAt_eq H base (j + 1) (by omega), layerAt_eq H base j (by omega),
    Function.iterate_succ_apply']

theorem layerAt_succ_length (H : String → String) (base : List String)
    (j : Nat) (hj : j < num_branches base.length) :
    (layerAt H base (j + 1)).length =
      ((layerAt H base j).length + 1) / 2 := by
  rw [layerAt_succ H base j hj, pairHash_length]

/-- In the paired case the `for node in nodes` loop of `route_proof`
performs exactly one match: it appends the ordered sibling pair of
position `p` and climbs to the parent at position `p / 2`. -/
theorem nodes_paired (H : String → String) (base : List String) (j p : Nat)
    (hj : j < num_branches base.length) (hsep : sep H base)
    (hp : p < (layerAt H base j).length)
    (hpaired : p % 2 = 1 ∨ p + 1 < (layerAt H base j).length)
    (rt : List (List String)) :
    (layerAt H base j).foldl (nodeStep H (layerAt H base (j + 1)))
      ((layerAt H base j).getD p "", rt) =
      ((layerAt H base (j + 1)).getD (p / 2) "",
       rt ++ [[(layerAt H base j).getD (2 * (p / 2)) "",
               (layerAt H base j).getD (2 * (p / 2) + 1) ""]]) := by
  obtain ⟨hnd, hpair, hcross⟩ := hsep
  have hndj := hnd j hj
  have hpairj := hpair j hj
  have hcrossj := hcross j hj
  set L := layerAt H base j with hL
  set A := layerAt H base (j + 1) with hA
  have hAlen : A.length = (L.length + 1) / 2 := layerAt_succ_length H base j hj
  have hp2 : p / 2 < A.length := by rw [hAlen]; omega
  have hsl : 2 * (p / 2) < L.length := by omega
  have hsl1 : 2 * (p / 2) + 1 < L.length := by omega
  have hparent : H (L.getD (2 * (p / 2)) "" ++ L.getD (2 * (p / 2) + 1) "") =
      A.getD (p / 2) "" :=
    (hpairj (2 * (p / 2)) hsl (2 * (p / 2) + 1) hsl1 (p / 2) hp2).mpr
      ⟨by omega, rfl, by omega⟩
  -- blanket no-match for the walking leaf at position p against a
  -- non-sibling position q
  have hno : ∀ q, q < L.length → ¬(p % 2 = 0 ∧ q = p + 1) →
      ¬(q % 2 = 0 ∧ p = q + 1) →
      ∀ nh ∈ A, H (L.getD p "" ++ L.getD q "") ≠ nh ∧
        H (L.getD q "" ++ L.getD p "") ≠ nh := by
    intro q hq hc1 hc2 nh hnh
    obtain ⟨r2, hr2, rfl⟩ := mem_list_pos A nh "" hnh
    constructor
    · intro heq
      have hm := (hpairj p hp q hq r2 hr2).mp heq
      exact hc1 ⟨hm.1, hm.2.1⟩
    · intro heq
      have hm := (hpairj q hq p hp r2 hr2).mp heq
      exact hc2 ⟨hm.1, hm.2.1⟩
  -- blanket no-match for a climbed (layer j+1) value against any node
  have hup : ∀ s, s < A.length → ∀ q, q < L.length →
      ∀ nh ∈ A, H (A.getD s "" ++ L.getD q "") ≠ nh ∧
        H (L.getD q "" ++ A.getD s "") ≠ nh := by
    intro s hs q hq nh hnh
    obtain ⟨r2, hr2, rfl⟩ := mem_list_pos A nh "" hnh
    exact hcrossj s hs q hq r2 hr2
  rcases Nat.even_or_odd p with hpe | hpo
  · -- p even: sibling at p + 1
    have hpe2 : p % 2 = 0 := Nat.even_iff.mp hpe
    have hp1 : p + 1 < L.length := by
      rcases hpaired with h | h
      · omega
      · exact h
    have hdec : L = L.take p ++ L.getD p "" :: L.getD (p + 1) "" ::
        L.drop (p + 2) := by
      conv_lhs => rw [← List.take_append_drop p L]
      rw [List.drop_eq_getElem_cons hp, List.drop_eq_getElem_cons hp1,
        List.getD_eq_getElem _ _ hp, List.getD_eq_getElem _ _ hp1]
    rw [congrArg (fun l => l.foldl (nodeStep H A) (L.getD p "", rt)) hdec]
    rw [List.foldl_append]
    rw [foldl_no_change _ _ (L.take p) ?hpre]
    case hpre =>
      intro a ha
      obtain ⟨q, hqm, hqlen, rfl⟩ := mem_take_pos L p a "" ha
      exact nodeStep_keep H A _ _
        (Or.inr (hno q hqlen (by omega) (by omega)))
    rw [List.foldl_cons]
    rw [nodeStep_keep H A _ _ (Or.inl rfl), List.foldl_cons]
    have hAdec : A = A.take (p / 2) ++ A.getD (p / 2) "" ::
        A.drop (p / 2 + 1) := by
      conv_lhs => rw [← List.take_append_drop (p / 2) A]
      rw [List.drop_eq_getElem_cons hp2, List.getD_eq_getElem _ _ hp2]
    have hsibne : L.getD p "" ≠ L.getD (p + 1) "" :=
      nodup_getD_ne L hndj p (p + 1) hp hp1 (by omega)
    have hstep : nodeStep H A (L.getD p "", rt) (L.getD (p + 1) "") =
        (A.getD (p / 2) "", rt ++ [[L.getD p "", L.getD (p + 1) ""]]) := by
      unfold nodeStep
      rw [if_pos (by simpa using hsibne)]
      rw [congrArg (fun l =>
        l.foldl (innerStep H (L.getD (p + 1) "")) (L.getD p "", rt)) hAdec]
      apply innerFold_hit1
      · intro x hx
        obtain ⟨r2, hr2m, hr2len, rfl⟩ := mem_take_pos A (p / 2) x "" hx
        constructor
        · intro heq
          have hm := (hpairj p hp (p + 1) hp1 r2 hr2len).mp heq
          omega
        · intro heq
          have hm := (hpairj (p + 1) hp1 p hp r2 hr2len).mp heq
          omega
      · rw [show 2 * (p / 2) = p by omega] at hparent
        exact hparent
      · intro x hx
        obtain ⟨r2, hr2m, hr2len, rfl⟩ := mem_drop_pos A (p / 2 + 1) x "" hx
        exact hup (p / 2) hp2 (p + 1) hp1 (A.getD r2 "")
          (by rw [List.getD_eq_getElem _ _ hr2len]; exact List.getElem_mem _)
    rw [hstep]
    rw [foldl_no_change _ _ (L.drop (p + 2)) ?hrest]
    case hrest =>
      intro a ha
      obtain ⟨q, hqm, hqlen, rfl⟩ := mem_drop_pos L (p + 2) a "" ha
      exact nodeStep_keep H A _ _ (Or.inr (hup (p / 2) hp2 q hqlen))
    rw [show 2 * (p / 2) = p by omega]
  · -- p odd: sibling at p - 1, matched through the elif branch
    have hpo2 : p % 2 = 1 := Nat.odd_iff.mp hpo
    have hm1lt : p - 1 < L.length := by omega
    have hdec : L = L.take (p - 1) ++ L.getD (p - 1) "" :: L.getD p "" ::
        L.drop (p + 1) := by
      conv_lhs => rw [← List.take_append_drop (p - 1) L]
      rw [List.drop_eq_getElem_cons hm1lt,
        show p - 1 + 1 = p by omega, List.drop_eq_getElem_cons hp,
        List.getD_eq_getElem _ _ hm1lt, List.getD_eq_getElem _ _ hp]
    rw [congrArg (fun l => l.foldl (nodeStep H A) (L.getD p "", rt)) hdec]
    rw [List.foldl_append]
    rw [foldl_no_change _ _ (L.take (p - 1)) ?hpre2]
    case hpre2 =>
      intro a ha
      obtain ⟨q, hqm, hqlen, rfl⟩ := mem_take_pos L (p - 1) a "" ha
      exact nodeStep_keep H A _ _
        (Or.inr (hno q hqlen (by omega) (by omega)))
    rw [List.foldl_cons]
    have hAdec : A = A.take (p / 2) ++ A.getD (p / 2) "" ::
        A.drop (p / 2 + 1) := by
      conv_lhs => rw [← List.take_append_drop (p / 2) A]
      rw [List.drop_eq_getElem_cons hp2, List.getD_eq_getElem _ _ hp2]
    have hsibne : L.getD p "" ≠ L.getD (p - 1) "" :=
      nodup_getD_ne L hndj p (p - 1) hp hm1lt (by omega)
    have hstep : nodeStep H A (L.getD p "", rt) (L.getD (p - 1) "") =
        (A.getD (p / 2) "", rt ++ [[L.getD (p - 1) "", L.getD p ""]]) := by
      unfold nodeStep
      rw [if_pos (by simpa using hsibne)]
      rw [congrArg (fun l =>
        l.foldl (innerStep H (L.getD (p - 1) "")) (L.getD p "", rt)) hAdec]
      apply innerFold_hit2
      · intro x hx
        obtain ⟨r2, hr2m, hr2len, rfl⟩ := mem_take_pos A (p / 2) x "" hx
        constructor
        · intro heq
          have hm := (hpairj p hp (p - 1) hm1lt r2 hr2len).mp heq
          omega
        · intro heq
          have hm := (hpairj (p - 1) hm1lt p hp r2 hr2len).mp heq
          omega
      · intro heq
        have hm := (hpairj p hp (p - 1) hm1lt (p / 2) hp2).mp heq
        omega
      · have := (hpairj (p - 1) hm1lt p hp (p / 2) hp2).mpr
          ⟨by omega, by omega, by omega⟩
        exact this
      · intro x hx
        obtain ⟨r2, hr2m, hr2len, rfl⟩ := mem_drop_pos A (p / 2 + 1) x "" hx
        exact hup (p / 2) hp2 (p - 1) hm1lt (A.getD r2 "")
          (by rw [List.getD_eq_getElem _ _ hr2len]; exact List.getElem_mem _)
    rw [hstep, List.foldl_cons]
    rw [nodeStep_keep H A _ _ (Or.inr (hup (p / 2) hp2 p hp))]
    rw [foldl_no_change _ _ (L.drop (p + 1)) ?hrest2]
    case hrest2 =>
      intro a ha
      obtain ⟨q, hqm, hqlen, rfl⟩ := mem_drop_pos L (p + 1) a "" ha
      exact nodeStep_keep H A _ _ (Or.inr (hup (p / 2) hp2 q hqlen))
    rw [show 2 * (p / 2) = p - 1 by omega, show p - 1 + 1 = p by omega]

/-- In the carried case (even position at the odd end of the layer) the
`for node in nodes` loop performs no match at all: the leaf value and the
path are unchanged. -/
theorem nodes_carried (H : String → String) (base : List String) (j p : Nat)
    (hj : j < num_branches base.length) (hsep : sep H base)
    (hp : p < (layerAt H base j).length)
    (hpe : p % 2 = 0) (hlast : p + 1 = (layerAt H base j).length)
    (rt : List (List String)) :
    (layerAt H base j).foldl (nodeStep H (layerAt H base (j + 1)))
      ((layerAt H base j).getD p "", rt) =
      ((layerAt H base j).getD p "", rt) := by
  obtain ⟨hnd, hpair, hcross⟩ := hsep
  have hpairj := hpair j hj
  set L := layerAt H base j with hL
  set A := layerAt H base (j + 1) with hA
  have hno : ∀ q, q < L.length → ¬(p % 2 = 0 ∧ q = p + 1) →
      ¬(q % 2 = 0 ∧ p = q + 1) →
      ∀ nh ∈ A, H (L.getD p "" ++ L.getD q "") ≠ nh ∧
        H (L.getD q "" ++ L.getD p "") ≠ nh := by
    intro q hq hc1 hc2 nh hnh
    obtain ⟨r2, hr2, rfl⟩ := mem_list_pos A nh "" hnh
    constructor
    · intro heq
      have hm := (hpairj p hp q hq r2 hr2).mp heq
      exact hc1 ⟨hm.1, hm.2.1⟩
    · intro heq
      have hm := (hpairj q hq p hp r2 hr2).mp heq
      exact hc2 ⟨hm.1, hm.2.1⟩
  have hdec : L = L.take p ++ [L.getD p ""] := by
    conv_lhs => rw [← List.take_append_drop p L]
    rw [List.drop_eq_getElem_cons hp, List.getD_eq_getElem _ _ hp]
    congr 1
    have hnil : List.drop (p + 1) L = [] := by
      apply List.drop_eq_nil_of_le
      omega
    rw [hnil]
  rw [congrArg (fun l => l.foldl (nodeStep H A) (L.getD p "", rt)) hdec]
  rw [List.foldl_append]
  rw [foldl_no_change _ _ (L.take p) ?hpre]
  case hpre =>
    intro a ha
    obtain ⟨q, hqm, hqlen, rfl⟩ := mem_take_pos L p a "" ha
    exact nodeStep_keep H A _ _
      (Or.inr (hno q hqlen (by omega) (by omega)))
  rw [List.foldl_cons]
  exact nodeStep_keep H A _ _ (Or.inl rfl)

/-- The carried element reappears at position `p / 2` of the next layer
unchanged. -/
theorem carry_value (H : String → String) (base : List String) (j p : Nat)
    (hj : j < num_branches base.length)
    (hp : p < (layerAt H base j).length)
    (hpe : p % 2 = 0) (hlast : p + 1 = (layerAt H base j).length) :
    (layerAt H base (j + 1)).getD (p / 2) "" =
      (layerAt H base j).getD p "" := by
  rw [layerAt_succ H base j hj]
  rw [pairHash_getD_carry H (layerAt H base j) (p / 2) (by omega)]
  rw [show 2 * (p / 2) = p by omega]

theorem layerAt_zero (H : String → String) (base : List String) :
    layerAt H base 0 = base := rfl

theorem pos_lt_layer (H : String → String) (base : List String) (i : Nat)
    (hi : i < base.length) :
    ∀ j, j ≤ num_branches base.length →
      i / 2 ^ j < (layerAt H base j).length := by
  intro j
  induction j with
  | zero =>
      intro _
      simpa [layerAt_zero] using hi
  | succ j ih =>
      intro hj
      have h1 := ih (by omega)
      rw [layerAt_succ_length H base j (by omega)]
      rw [pow_succ, ← Nat.div_div_eq_div_mul]
      omega

theorem div_succ_pow (i j : Nat) : i / 2 ^ (j + 1) = i / 2 ^ j / 2 := by
  rw [pow_succ, ← Nat.div_div_eq_div_mul]

/-- The walk of `route_proof` over the non-singleton layers: after `j`
layers the current value is the layer-`j` node above leaf `i` and the
collected path holds one ordered sibling pair per paired layer. -/
theorem route_fold (H : String → String) (base : List String) (i : Nat)
    (h2 : 2 ≤ base.length) (h512 : base.length ≤ 512)
    (hsep : sep H base) (hi : i < base.length) :
    ∀ j, j ≤ num_branches base.length →
      (List.range j).foldl
        (layerStep H (create_tree H base) (treeRoot H base))
        (base.getD i "", []) =
        ((layerAt H base j).getD (i / 2 ^ j) "",
         (List.range j).filterMap (fun k =>
           if pairedAt H base i k then
             some [(layerAt H base k).getD (2 * (i / 2 ^ (k + 1))) "",
                   (layerAt H base k).getD (2 * (i / 2 ^ (k + 1)) + 1) ""]
           else none)) := by
  intro j
  induction j with
  | zero =>
      intro _
      simp [layerAt_zero]
  | succ j ih =>
      intro hj1
      have hj : j < num_branches base.length := by omega
      rw [List.range_succ, List.foldl_append, ih (by omega),
        List.filterMap_append]
      have hplt := pos_lt_layer H base i hi j (by omega)
      have hlay2 : 2 ≤ (layerAt H base j).length := by
        rw [layerAt_length H base j (by omega)]
        exact (branches_table base.length (by omega) (by omega)).2
          (by omega) j hj
      show layerStep H (create_tree H base) (treeRoot H base) _ j = _
      unfold layerStep
      rw [if_neg (by
        show ¬((create_tree H base).getD j []).length = 1
        show ¬(layerAt H base j).length = 1
        omega)]
      show (layerAt H base j).foldl
        (nodeStep H (layerAt H base (j + 1))) _ = _
      by_cases hpb : pairedAt H base i j = true
      · have hpaired : i / 2 ^ j % 2 = 1 ∨
            i / 2 ^ j + 1 < (layerAt H base j).length := by
          unfold pairedAt at hpb
          simpa using hpb
        have hfm : List.filterMap (fun k =>
            if pairedAt H base i k = true then
              some [(layerAt H base k).getD (2 * (i / 2 ^ (k + 1))) "",
                    (layerAt H base k).getD (2 * (i / 2 ^ (k + 1)) + 1) ""]
            else none) [j] =
            [[(layerAt H base j).getD (2 * (i / 2 ^ (j + 1))) "",
              (layerAt H base j).getD (2 * (i / 2 ^ (j + 1)) + 1) ""]] := by
          rw [List.filterMap_cons, if_pos hpb]
          rfl
        rw [hfm, nodes_paired H base j (i / 2 ^ j) hj hsep hplt hpaired]
        rw [div_succ_pow]
      · have hcar : i / 2 ^ j % 2 = 0 ∧
            i / 2 ^ j + 1 = (layerAt H base j).length := by
          unfold pairedAt at hpb
          simp only [Bool.or_eq_true, decide_eq_true_eq, not_or] at hpb
          omega
        have hfm : List.filterMap (fun k =>
            if pairedAt H base i k = true then
              some [(layerAt H base k).getD (2 * (i / 2 ^ (k + 1))) "",
                    (layerAt H base k).getD (2 * (i / 2 ^ (k + 1)) + 1) ""]
            else none) [j] = ([] : List (List String)) := by
          rw [List.filterMap_cons, if_neg hpb]
          rfl
        rw [hfm, nodes_carried H base j (i / 2 ^ j) hj hsep hplt hcar.1 hcar.2,
          List.append_nil]
        rw [div_succ_pow,
          carry_value H base j (i / 2 ^ j) hj hplt hcar.1 hcar.2]

theorem authPairsFrom_zero (H : String → String) (base : List String)
    (i : Nat) : authPairsFrom H base i 0 = authPairs H base i := by
  unfold authPairsFrom authPairs
  rw [← List.range_eq_range', Nat.sub_zero]

theorem authPairsFrom_last (H : String → String) (base : List String)
    (i : Nat) :
    authPairsFrom H base i (num_branches base.length) = [] := by
  unfold authPairsFrom
  rw [Nat.sub_self]
  rfl

theorem authPairsFrom_step (H : String → String) (base : List String)
    (i j : Nat) (hj : j < num_branches base.length) :
    authPairsFrom H base i j =
      (if pairedAt H base i j then
        [[(layerAt H base j).getD (2 * (i / 2 ^ (j + 1))) "",
          (layerAt H base j).getD (2 * (i / 2 ^ (j + 1)) + 1) ""]]
      else []) ++ authPairsFrom H base i (j + 1) := by
  unfold authPairsFrom
  rw [show num_branches base.length - j =
    (num_branches base.length - (j + 1)) + 1 by omega, List.range'_succ,
    List.filterMap_cons]
  by_cases hpb : pairedAt H base i j = true
  · rw [if_pos hpb, if_pos hpb]
    rfl
  · rw [if_neg hpb, if_neg hpb]
    rfl

/-- The verification walk of `verify_root` succeeds along the collected
path suffix from any layer `j`, and the walking layer-`j` node is a
member of the suffix's first element. -/
theorem verifyWalk_from (H : String → String) (base : List String) (i : Nat)
    (h2 : 2 ≤ base.length) (h512 : base.length ≤ 512)
    (hsep : sep H base) (hi : i < base.length) :
    ∀ j, j ≤ num_branches base.length →
      verifyWalk H (String.join (treeRoot H base))
        (authPairsFrom H base i j ++ [treeRoot H base]) = some true ∧
      (layerAt H base j).getD (i / 2 ^ j) "" ∈
        (authPairsFrom H base i j ++ [treeRoot H base]).getD 0 [] := by
  have hroot1 : (treeRoot H base).length = 1 := by
    rw [treeRoot_eq, layerAt_length H base _ (le_refl _)]
    exact (branches_table base.length (by omega) (by omega)).1
  have main : ∀ d j, j + d = num_branches base.length →
      (verifyWalk H (String.join (treeRoot H base))
        (authPairsFrom H base i j ++ [treeRoot H base]) = some true ∧
      (layerAt H base j).getD (i / 2 ^ j) "" ∈
        (authPairsFrom H base i j ++ [treeRoot H base]).getD 0 []) := by
    intro d
    induction d with
    | zero =>
        intro j hj
        rw [Nat.add_zero] at hj
        subst hj
        rw [authPairsFrom_last, List.nil_append]
        constructor
        · unfold verifyWalk
          rw [if_pos hroot1]
          simp
        · have hlt : i / 2 ^ num_branches base.length <
              (layerAt H base (num_branches base.length)).length :=
            pos_lt_layer H base i hi _ (le_refl _)
          have hl1 : (layerAt H base (num_branches base.length)).length = 1 := by
            rw [treeRoot_eq] at hroot1
            exact hroot1
          show _ ∈ treeRoot H base
          rw [treeRoot_eq]
          rw [List.getD_eq_getElem _ _ hlt]
          exact List.getElem_mem _
    | succ d ih =>
        intro j hj
        have hjB : j < num_branches base.length := by omega
        have hIH := ih (j + 1) (by omega)
        rw [authPairsFrom_step H base i j hjB]
        have hp := pos_lt_layer H base i hi j (by omega)
        have hp1 := pos_lt_layer H base i hi (j + 1) (by omega)
        by_cases hpb : pairedAt H base i j = true
        · rw [if_pos hpb]
          have hpaired : i / 2 ^ j % 2 = 1 ∨
              i / 2 ^ j + 1 < (layerAt H base j).length := by
            unfold pairedAt at hpb
            simpa using hpb
          have hb1 : 2 * (i / 2 ^ (j + 1)) < (layerAt H base j).length := by
            rw [div_succ_pow]
            omega
          have hb2 : 2 * (i / 2 ^ (j + 1)) + 1 <
              (layerAt H base j).length := by
            rw [div_succ_pow]
            omega
          have hparent : H ((layerAt H base j).getD
                (2 * (i / 2 ^ (j + 1))) "" ++
              (layerAt H base j).getD (2 * (i / 2 ^ (j + 1)) + 1) "") =
              (layerAt H base (j + 1)).getD (i / 2 ^ (j + 1)) "" :=
            (hsep.2.1 j hjB (2 * (i / 2 ^ (j + 1))) hb1
              (2 * (i / 2 ^ (j + 1)) + 1) hb2 (i / 2 ^ (j + 1)) hp1).mpr
              ⟨by omega, rfl, by omega⟩
          rcases hrest : authPairsFrom H base i (j + 1) ++ [treeRoot H base]
            with _ | ⟨e2, rest2⟩
          · exact absurd hrest (by simp)
          · rw [List.singleton_append, List.cons_append, hrest]
            constructor
            · unfold verifyWalk
              rw [if_neg (by simp), if_neg (by simp)]
              have hmem : H ((layerAt H base j).getD
                    (2 * (i / 2 ^ (j + 1))) "" ++
                  (layerAt H base j).getD (2 * (i / 2 ^ (j + 1)) + 1) "")
                  ∈ e2 := by
                have hm2 := hIH.2
                rw [hrest] at hm2
                rw [hparent]
                simpa using hm2
              show (if H ((layerAt H base j).getD (2 * (i / 2 ^ (j + 1))) "" ++
                  (layerAt H base j).getD (2 * (i / 2 ^ (j + 1)) + 1) "") ∈ e2
                then verifyWalk H (String.join (treeRoot H base)) (e2 :: rest2)
                else some false) = some true
              rw [if_pos hmem]
              have hv := hIH.1
              rw [hrest] at hv
              exact hv
            · show (layerAt H base j).getD (i / 2 ^ j) "" ∈
                [(layerAt H base j).getD (2 * (i / 2 ^ (j + 1))) "",
                 (layerAt H base j).getD (2 * (i / 2 ^ (j + 1)) + 1) ""]
              have hsplit : i / 2 ^ j = 2 * (i / 2 ^ (j + 1)) ∨
                  i / 2 ^ j = 2 * (i / 2 ^ (j + 1)) + 1 := by
                rw [div_succ_pow]
                omega
              rcases hsplit with hs | hs
              · rw [hs]
                simp
              · rw [hs]
                simp
        · rw [if_neg hpb, List.nil_append]
          have hcar : i / 2 ^ j % 2 = 0 ∧
              i / 2 ^ j + 1 = (layerAt H base j).length := by
            unfold pairedAt at hpb
            simp only [Bool.or_eq_true, decide_eq_true_eq, not_or] at hpb
            omega
          refine ⟨hIH.1, ?_⟩
          have hcv := carry_value H base j (i / 2 ^ j) hjB hp hcar.1 hcar.2
          rw [div_succ_pow] at hIH
          rw [hcv] at hIH
          exact hIH.2
  intro j hj
  exact main (num_branches base.length - j) j (by omega)

theorem filter_not_length {α : Type} (p : α → Bool) (l : List α) :
    (l.filter p).length + (l.filter (fun a => !p a)).length = l.length := by
  induction l with
  | nil => rfl
  | cons a t ih =>
      cases hpa : p a with
      | false =>
          simp only [List.filter_cons, hpa, Bool.not_false, if_pos,
            if_neg, Bool.false_eq_true, ite_false, ite_true,
            List.length_cons]
          omega
      | true =>
          simp only [List.filter_cons, hpa, Bool.not_true, if_pos,
            if_neg, Bool.false_eq_true, ite_false, ite_true,
            List.length_cons]
          omega

theorem filterMap_if_length {α β : Type} (p : α → Bool) (f : α → List β)
    (l : List α) :
    (l.filterMap (fun a => if p a then some (f a) else none)).length =
      (l.filter p).length := by
  induction l with
  | nil => rfl
  | cons a t ih =>
      rw [List.filterMap_cons, List.filter_cons]
      by_cases hpa : p a = true
      · rw [if_pos hpa, if_pos hpa]
        simp only [List.length_cons]
        omega
      · rw [if_neg hpa, if_neg hpa]
        exact ih

/-- `route_proof` for a tree with at least two leaves: the collected
sibling pairs followed by the root. -/
theorem route_proof_eq (H : String → String) (base : List String) (i : Nat)
    (h2 : 2 ≤ base.length) (h512 : base.length ≤ 512)
    (hsep : sep H base) (hi : i < base.length) :
    route_proof H base i = authPairs H base i ++ [treeRoot H base] := by
  unfold route_proof
  show ((List.range (create_tree H base).length).foldl
    (layerStep H (create_tree H base) (treeRoot H base))
    (((create_tree H base).getD 0 []).getD i "", [])).2 = _
  rw [create_tree_length]
  rw [List.range_succ, List.foldl_append]
  have hinit : ((create_tree H base).getD 0 []).getD i "" =
      base.getD i "" := rfl
  rw [hinit, route_fold H base i h2 h512 hsep hi
    (num_branches base.length) (le_refl _)]
  have hroot1 : (layerAt H base (num_branches base.length)).length = 1 := by
    rw [layerAt_length H base _ (le_refl _)]
    exact (branches_table base.length (by omega) (by omega)).1
  rw [List.foldl_cons, List.foldl_nil]
  unfold layerStep
  rw [show (create_tree H base).getD (num_branches base.length) [] =
    layerAt H base (num_branches base.length) from rfl]
  rw [if_pos hroot1, if_pos (treeRoot_eq H base).symm]
  rfl

/-- The length accounting for `route_proof` with at least two leaves. -/
theorem route_proof_length (H : String → String) (base : List String)
    (i : Nat) (h2 : 2 ≤ base.length) (h512 : base.length ≤ 512)
    (hsep : sep H base) (hi : i < base.length) :
    (route_proof H base i).length =
      (create_tree H base).length - carriedCount H base i := by
  rw [route_proof_eq H base i h2 h512 hsep hi, create_tree_length]
  rw [List.length_append]
  unfold authPairs carriedCount
  rw [filterMap_if_length]
  have hcong : (List.range (num_branches base.length)).filter (fun k =>
      1 < (layerAt H base k).length && !pairedAt H base i k) =
      (List.range (num_branches base.length)).filter (fun k =>
        !pairedAt H base i k) := by
    apply List.filter_congr
    intro k hk
    have hkB : k < num_branches base.length := List.mem_range.mp hk
    have hk2 : 2 ≤ (layerAt H base k).length := by
      rw [layerAt_length H base k (le_of_lt hkB)]
      exact (branches_table base.length (by omega) (by omega)).2 h2 k hkB
    have h1k : 1 < (layerAt H base k).length := by omega
    simp [h1k]
  rw [hcong]
  have hsum : (List.filter (pairedAt H base i)
        (List.range (num_branches base.length))).length +
      (List.filter (fun k => !pairedAt H base i k)
        (List.range (num_branches base.length))).length =
      num_branches base.length := by
    have h := filter_not_length (pairedAt H base i)
      (List.range (num_branches base.length))
    rw [List.length_range] at h
    exact h
  have hle : (List.filter (fun k => !pairedAt H base i k)
      (List.range (num_branches base.length))).length ≤
      num_branches base.length := by
    have h := List.length_filter_le (fun k => !pairedAt H base i k)
      (List.range (num_branches base.length))
    rw [List.length_range] at h
    exact h
  simp only [List.length_cons, List.length_nil]
  omega

theorem single_leaf_tree (H : String → String) (a : String) :
    create_tree H [a] = [[a], [a]] ∧ treeRoot H [a] = [a] := by
  have hcl : create_layer H [a] = [a] := by
    rw [create_layer_eq]
    rfl
  have htree : create_tree H [a] = [[a], [a]] := by
    unfold create_tree
    rw [show num_branches ([a] : List String).length = 1 from rfl]
    unfold layersFrom
    rw [hcl]
    rfl
  refine ⟨htree, ?_⟩
  unfold treeRoot
  rw [htree]
  rfl

theorem single_leaf_route (H : String → String) (a : String) (i : Nat) :
    route_proof H [a] i = [[a], [a]] := by
  obtain ⟨htree, htr⟩ := single_leaf_tree H a
  unfold route_proof
  show ((List.range (create_tree H [a]).length).foldl
    (layerStep H (create_tree H [a]) (treeRoot H [a]))
    (((create_tree H [a]).getD 0 []).getD i "", [])).2 = _
  rw [htree, htr]
  have hls : ∀ (st : String × List (List String)) (x : Nat), x < 2 →
      layerStep H [[a], [a]] [a] st x = (st.1, st.2 ++ [[a]]) := by
    intro st x hx
    unfold layerStep
    match x, hx with
    | 0, _ =>
        rw [show ([[a], [a]] : List (List String)).getD 0 [] = [a] from rfl]
        rw [if_pos (by simp), if_pos rfl]
    | 1, _ =>
        rw [show ([[a], [a]] : List (List String)).getD 1 [] = [a] from rfl]
        rw [if_pos (by simp), if_pos rfl]
  rw [show List.range ([[a], [a]] : List (List String)).length = [0, 1]
    from rfl]
  rw [List.foldl_cons, List.foldl_cons, List.foldl_nil]
  rw [hls _ 0 (by omega), hls _ 1 (by omega)]
  rfl

/-- C5 (amended): for every leaf count `1 ≤ n ≤ 512` and leaf index
`i < n`, under the no-hash-collision condition `sep`, `route_proof`
produces for leaf `i` an authentication path whose length is the tree
height minus the number of non-singleton layers at which the leaf is
carried unpaired (so the length equals the height exactly when the leaf
is paired at every such layer, e.g. whenever `n` is a power of two or
`n ≤ 2`), and `verify_root` succeeds on that path with the leaf's
public key and the tree's root. -/
theorem C5_merkle_auth_path (H : String → String) (base pub : List String)
    (i : Nat) (h1 : 1 ≤ base.length) (h512 : base.length ≤ 512)
    (hsep : sep H base) (hi : i < base.length) (hpub : pub ≠ [])
    (hleaf : H (String.join pub) = base.getD i "")
    (hroot : String.join (treeRoot H base) ≠ "") :
    (route_proof H base i).length =
      (create_tree H base).length - carriedCount H base i ∧
    verify_root H pub (String.join (treeRoot H base))
      (route_proof H base i) = some true := by
  rcases Nat.lt_or_ge base.length 2 with hn1 | hn2
  · -- a single leaf: the route appends the root at both singleton layers
    have hlen1 : base.length = 1 := by omega
    obtain ⟨a, rfl⟩ := List.length_eq_one.mp hlen1
    obtain ⟨htree, htr⟩ := single_leaf_tree H a
    have hi0 : i = 0 := by
      simp only [List.length_singleton] at hi
      omega
    subst hi0
    have hroute := single_leaf_route H a 0
    constructor
    · rw [hroute, htree]
      rfl
    · unfold verify_root
      rw [if_neg hpub, if_neg hroot, hroute, if_neg (by simp)]
      have hmem : H (String.join pub) ∈
          ([[a], [a]] : List (List String)).getD 0 [] := by
        rw [hleaf]
        simp
      rw [if_neg (not_not_intro hmem)]
      unfold verifyWalk
      rw [if_pos (by simp), htr]
      simp
  · constructor
    · exact route_proof_length H base i hn2 h512 hsep hi
    · have hwalk := verifyWalk_from H base i hn2 h512 hsep hi 0 (by omega)
      rw [authPairsFrom_zero] at hwalk
      rw [route_proof_eq H base i hn2 h512 hsep hi]
      unfold verify_root
      rw [if_neg hpub, if_neg hroot, if_neg (by simp)]
      have hmem : H (String.join pub) ∈
          (authPairs H base i ++ [treeRoot H base]).getD 0 [] := by
        have h2m := hwalk.2
        rw [layerAt_zero, pow_zero, Nat.div_one] at h2m
        rw [hleaf]
        exact h2m
      rw [if_neg (not_not_intro hmem)]
      exact hwalk.1

/-- C5 counterexample: in the 3-leaf tree over `["a", "b", "c"]` (with
the injective hash stand-in `cH`) the third leaf is carried unpaired at
the base layer, so its authentication path has 2 elements while the tree
height is 3 — the claimed `len(authPath(i)) == height` fails. -/
theorem C5_merkle_auth_path_counterexample :
    (route_proof cH ["a", "b", "c"] 2).length = 2 ∧
    (create_tree cH ["a", "b", "c"]).length = 3 := by
  constructor
  · decide
  · decide

/-- C5 witness: the amended statement evaluated on a concrete 2-leaf
tree whose leaves are the hashes of two public keys. -/
theorem C5_merkle_auth_path_witness :
    (route_proof cH ["ha", "hb"] 0).length =
      (create_tree cH ["ha", "hb"]).length -
        carriedCount cH ["ha", "hb"] 0 ∧
    verify_root cH ["a"] (String.join (treeRoot cH ["ha", "hb"]))
      (route_proof cH ["ha", "hb"] 0) = some true :=
  C5_merkle_auth_path cH ["ha", "hb"] ["a"] 0 (by decide) (by decide)
    (by
      have hb1 : num_branches (["ha", "hb"] : List String).length = 1 := by
        decide
      refine ⟨?_, ?_, ?_⟩ <;>
        · intro j hj
          have hj0 : j = 0 := by omega
          subst hj0
          decide)
    (by decide) (by decide) (by decide) (by decide)
